import Mathlib

/-!
# Verification of the Binance futures-alert extraction core

A shallow embedding, in Lean 4, of the extraction pipeline of `src/main.py`:

* `TIME_LINE_RE` / `PAIR_RE` — the two regexes, embedded as deterministic
  recursive matchers over `List Char` (the character classes are modelled over
  the ASCII range, which covers every character the repository's patterns and
  examples use);
* `utc_to_taipei` — `strptime` validation plus the fixed UTC+8 conversion
  (the tz database entry `Asia/Taipei` is UTC+8 without daylight saving for
  every timestamp the extractor can produce, i.e. years 2000–2099);
* `walk_text` / `extract_lines_from_content_json` — the JSON flattener;
* `parse_pair_times_from_lines` — the marker/pair association state machine
  with its lookahead window and `(pair, utc)` deduplication;
* the novelty filter, message sorting, and the end-of-run persistence logic
  of `main` / `save_state`.

Theorems at the end of the file settle the frozen claims C1–C10.
-/

set_option maxRecDepth 100000
set_option maxHeartbeats 1000000

namespace BinanceAlert

/-! ## Character classes (ASCII model of the Python regex classes) -/

/-- Python regex `\s` restricted to ASCII: space, tab, newline, carriage
return, vertical tab, form feed. -/
def isWs (c : Char) : Bool :=
  c = ' ' || c = '\t' || c = '\n' || c = '\r' || c = '\x0b' || c = '\x0c'

/-- Python regex `\d` restricted to ASCII: `'0'`–`'9'`. -/
def isDigitC (c : Char) : Bool :=
  48 ≤ c.toNat && c.toNat ≤ 57

/-- The character class `[A-Z0-9]` of `PAIR_RE`, exactly as written:
uppercase letters and digits only (`PAIR_RE` is compiled without flags, so
the class is case-sensitive). -/
def isAlnumU (c : Char) : Bool :=
  (65 ≤ c.toNat && c.toNat ≤ 90) || isDigitC c

/-- ASCII letters and digits.  Used only below for the word-character class
`\w` that decides `\b`: word boundaries are independent of regex flags, so
`\b` treats lowercase letters as word characters even though `PAIR_RE`'s
own class does not match them. -/
def isAlnumC (c : Char) : Bool :=
  (65 ≤ c.toNat && c.toNat ≤ 90) || (97 ≤ c.toNat && c.toNat ≤ 122) || isDigitC c

/-- Python regex word character (`\w`, deciding `\b`), ASCII range:
letters, digits and underscore. -/
def isWordChar (c : Char) : Bool :=
  isAlnumC c || c = '_'

theorem isWs_false_of_isDigitC {c : Char} (h : isDigitC c = true) : isWs c = false := by
  cases hws : isWs c with
  | false => rfl
  | true =>
    simp only [isWs, Bool.or_eq_true, decide_eq_true_eq] at hws
    rcases hws with ((((h1 | h1) | h1) | h1) | h1) | h1 <;>
      (subst h1; exact absurd h (by decide))

theorem isWs_lparen : isWs '(' = false := by decide

theorem isWs_colon : isWs ':' = false := by decide

/-! ## Dropping whitespace (the deterministic core of `\s*` / `\s+`) -/

/-- Remove the maximal all-whitespace prefix. -/
def dropWs : List Char → List Char
  | [] => []
  | c :: cs => if isWs c then dropWs cs else c :: cs

/-- An all-whitespace character list. -/
def wsOnly (l : List Char) : Prop := ∀ c ∈ l, isWs c = true

instance (l : List Char) : Decidable (wsOnly l) := by
  unfold wsOnly; infer_instance

theorem wsOnly_nil : wsOnly [] := by
  intro c hc
  cases hc

theorem dropWs_append_wsOnly {w : List Char} (hw : wsOnly w) (r : List Char) :
    dropWs (w ++ r) = dropWs r := by
  induction w with
  | nil => rfl
  | cons c cs ih =>
    have hc : isWs c = true := hw c (List.mem_cons_self c cs)
    have hcs : wsOnly cs := fun x hx => hw x (List.mem_cons_of_mem c hx)
    simp [dropWs, hc, ih hcs]

theorem dropWs_cons_of_not_ws {c : Char} (hc : isWs c = false) (r : List Char) :
    dropWs (c :: r) = c :: r := by
  simp [dropWs, hc]

theorem dropWs_eq_nil_of_wsOnly {w : List Char} (hw : wsOnly w) : dropWs w = [] := by
  have := dropWs_append_wsOnly hw []
  simpa using this

theorem wsOnly_of_dropWs_eq_nil : ∀ {l : List Char}, dropWs l = [] → wsOnly l := by
  intro l
  induction l with
  | nil => intro _ c hc; cases hc
  | cons c cs ih =>
    intro h
    by_cases hc : isWs c = true
    · simp [dropWs, hc] at h
      intro x hx
      rcases List.mem_cons.1 hx with rfl | hx
      · exact hc
      · exact ih h x hx
    · simp [dropWs, hc] at h

theorem dropWs_decomp (l : List Char) : ∃ w, wsOnly w ∧ l = w ++ dropWs l := by
  induction l with
  | nil => exact ⟨[], wsOnly_nil, rfl⟩
  | cons c cs ih =>
    by_cases hc : isWs c = true
    · obtain ⟨w, hw, he⟩ := ih
      refine ⟨c :: w, ?_, ?_⟩
      · intro x hx
        rcases List.mem_cons.1 hx with rfl | hx
        · exact hc
        · exact hw x hx
      · simp only [dropWs, hc, if_true, List.cons_append]
        exact congrArg (c :: ·) he
    · refine ⟨[], wsOnly_nil, ?_⟩
      simp [dropWs, Bool.eq_false_iff.mpr hc]

theorem dropWs_head_not_ws : ∀ {l : List Char} {c : Char} {r : List Char},
    dropWs l = c :: r → isWs c = false := by
  intro l
  induction l with
  | nil => intro c r h; simp [dropWs] at h
  | cons x xs ih =>
    intro c r h
    by_cases hx : isWs x = true
    · simp [dropWs, hx] at h
      exact ih h
    · simp [dropWs, hx] at h
      obtain ⟨rfl, _⟩ := h
      exact Bool.eq_false_iff.mpr hx

theorem dropWs_length_le : ∀ l : List Char, (dropWs l).length ≤ l.length := by
  intro l
  induction l with
  | nil => simp [dropWs]
  | cons c cs ih =>
    by_cases hc : isWs c = true
    · simp [dropWs, hc]
      exact Nat.le_succ_of_le ih
    · simp [dropWs, hc]

/-! ## `TIME_LINE_RE`

The source regex (compiled with `re.IGNORECASE` and used via `.match`, i.e.
anchored on both sides because it ends in `$`):

    ^(20\d{2}-\d{2}-\d{2})\s+(\d{2}:\d{2})\s*\(UTC\)\s*:?\s*$

Adjacent sub-patterns have disjoint first-character classes, so greedy
matching never needs to backtrack and the regex is equivalent to the
deterministic matcher below. -/

/-- `(20\d{2}-\d{2}-\d{2})`: the captured date group and the rest. -/
def matchDate : List Char → Option (List Char × List Char)
  | '2' :: '0' :: y3 :: y4 :: '-' :: m1 :: m2 :: '-' :: d1 :: d2 :: rest =>
    if isDigitC y3 && isDigitC y4 && isDigitC m1 && isDigitC m2 &&
        isDigitC d1 && isDigitC d2 then
      some (['2', '0', y3, y4, '-', m1, m2, '-', d1, d2], rest)
    else none
  | _ => none

/-- `(\d{2}:\d{2})`: the captured time group and the rest. -/
def matchTime : List Char → Option (List Char × List Char)
  | h1 :: h2 :: ':' :: m1 :: m2 :: rest =>
    if isDigitC h1 && isDigitC h2 && isDigitC m1 && isDigitC m2 then
      some ([h1, h2, ':', m1, m2], rest)
    else none
  | _ => none

/-- `\(UTC\)` under `re.IGNORECASE`. -/
def matchUTCtok : List Char → Option (List Char)
  | '(' :: u :: t :: c :: ')' :: rest =>
    if (u = 'U' || u = 'u') && (t = 'T' || t = 't') && (c = 'C' || c = 'c') then
      some rest
    else none
  | _ => none

/-- `\s*:?\s*$` (`$` may also match just before a final newline, but any such
newline is whitespace, so dropping whitespace first is equivalent). -/
def matchTail (cs : List Char) : Bool :=
  match dropWs cs with
  | [] => true
  | ':' :: rest => (dropWs rest).isEmpty
  | _ => false

/-- `\s+` followed by the rest: one mandatory whitespace character, then the
maximal whitespace run (the next sub-pattern starts with a digit). -/
def dropWs1 : List Char → Option (List Char)
  | c :: cs => if isWs c then some (dropWs cs) else none
  | [] => none

/-- `TIME_LINE_RE.match` on a list of characters, returning the two captured
groups on success. -/
def timeLineMatchL (cs : List Char) : Option (List Char × List Char) :=
  match matchDate cs with
  | none => none
  | some (d, r1) =>
    match dropWs1 r1 with
    | none => none
    | some r2 =>
      match matchTime r2 with
      | none => none
      | some (t, r3) =>
        match matchUTCtok (dropWs r3) with
        | none => none
        | some r5 => if matchTail r5 then some (d, t) else none

/-- `TIME_LINE_RE.match` on a string: `m.group(1)` and `m.group(2)` on
success, `None` on failure. -/
def timeLineMatch (s : String) : Option (String × String) :=
  (timeLineMatchL s.data).map fun p => (String.mk p.1, String.mk p.2)

example : timeLineMatch "2024-03-01 08:00 (UTC)" = some ("2024-03-01", "08:00") := by decide
example : timeLineMatch "2024-03-01 08:00 (UTC):" = some ("2024-03-01", "08:00") := by decide
example : timeLineMatch "2024-03-01  08:00  (utc)" = some ("2024-03-01", "08:00") := by decide
example : timeLineMatch "on 2024-03-01 08:00 (UTC) we will..." = none := by decide
example : timeLineMatch "1999-03-01 08:00 (UTC)" = none := by decide
example : timeLineMatch "2024-03-01 08:00 (UTC) :  " = some ("2024-03-01", "08:00") := by decide

/-! ## `PAIR_RE`

The source regex, compiled with no flags (in particular *not*
case-insensitive) and used via `.findall`:

    \b([A-Z0-9]{2,15}USDT)\b

`findall` scans left to right; at each position with a word boundary before
it, the greedy quantifier tries 15 characters first, backing off to 2; after
a match the scan resumes right after the matched text.  Only uppercase
letters (and digits) can be part of a match, but `\b` still counts lowercase
letters as word characters. -/

/-- The literal `USDT` (case-sensitive): the four matched characters and the
rest. -/
def matchUSDT : List Char → Option (List Char × List Char)
  | 'U' :: 'S' :: 'D' :: 'T' :: rest => some (['U', 'S', 'D', 'T'], rest)
  | _ => none

/-- Try a match of exactly `k` `[A-Z0-9]` characters, then `USDT`, then a
trailing word boundary (`\b`): end of input or a non-word character. -/
def tryLenPair (cs : List Char) (k : Nat) : Option (List Char × List Char) :=
  if (cs.take k).length = k && (cs.take k).all isAlnumU then
    match matchUSDT (cs.drop k) with
    | some (us, rest) =>
      match rest with
      | [] => some (cs.take k ++ us, [])
      | c :: _ => if isWordChar c then none else some (cs.take k ++ us, rest)
    | none => none
  else none

/-- Greedy `{2,15}`: try length `n`, then `n-1`, …, down to `2`. -/
def tryPairFrom (cs : List Char) : Nat → Option (List Char × List Char)
  | 0 => none
  | 1 => none
  | n + 2 =>
    match tryLenPair cs (n + 2) with
    | some r => some r
    | none => tryPairFrom cs (n + 1)

theorem matchUSDT_decomp {l us rest : List Char} (h : matchUSDT l = some (us, rest)) :
    l = us ++ rest ∧ us.length = 4 := by
  unfold matchUSDT at h
  split at h
  · simp only [Option.some.injEq, Prod.mk.injEq] at h
    obtain ⟨h1, h2⟩ := h
    subst h1
    subst h2
    exact ⟨rfl, rfl⟩
  · simp at h

theorem matchUSDT_group {l us rest : List Char} (h : matchUSDT l = some (us, rest)) :
    us = ['U', 'S', 'D', 'T'] := by
  unfold matchUSDT at h
  split at h
  · simp only [Option.some.injEq, Prod.mk.injEq] at h
    exact h.1.symm
  · simp at h

theorem tryLenPair_length {cs g rest : List Char} {k : Nat}
    (h : tryLenPair cs k = some (g, rest)) : cs.length = k + 4 + rest.length := by
  unfold tryLenPair at h
  split at h
  · rename_i hpre
    simp only [Bool.and_eq_true, decide_eq_true_eq] at hpre
    obtain ⟨hk, _⟩ := hpre
    have hkle : k ≤ cs.length := by
      rw [List.length_take] at hk
      omega
    have hdrop : (cs.drop k).length = cs.length - k := List.length_drop k cs
    split at h
    · rename_i us rest' hus
      obtain ⟨hdec, hlen4⟩ := matchUSDT_decomp hus
      have hdroplen : (cs.drop k).length = 4 + rest'.length := by
        rw [hdec, List.length_append, hlen4]
      match rest' with
      | [] =>
        simp only [Option.some.injEq, Prod.mk.injEq] at h
        obtain ⟨h1, h2⟩ := h
        subst h2
        simp only [List.length_nil] at hdroplen ⊢
        omega
      | c :: r2 =>
        simp only [] at h
        split at h
        · simp at h
        · simp only [Option.some.injEq, Prod.mk.injEq] at h
          obtain ⟨h1, h2⟩ := h
          subst h2
          simp only [List.length_cons] at hdroplen ⊢
          omega
    · simp at h
  · simp at h

theorem tryPairFrom_length {cs g rest : List Char} :
    ∀ {n : Nat}, tryPairFrom cs n = some (g, rest) →
      ∃ k, 2 ≤ k ∧ cs.length = k + 4 + rest.length := by
  intro n
  induction n using Nat.strong_induction_on with
  | _ n ih =>
    intro h
    rcases n with _ | n1
    · simp [tryPairFrom] at h
    rcases n1 with _ | m
    · simp [tryPairFrom] at h
    unfold tryPairFrom at h
    split at h
    · rename_i r hr
      injection h with h'
      subst h'
      exact ⟨m + 2, by omega, tryLenPair_length hr⟩
    · exact ih (m + 1) (by omega) h

theorem tryPairFrom_rest_lt {cs g rest : List Char} {n : Nat}
    (h : tryPairFrom cs n = some (g, rest)) : rest.length + 6 ≤ cs.length := by
  obtain ⟨k, hk, h2⟩ := tryPairFrom_length h
  omega

/-- One scan step of `PAIR_RE.findall`, with explicit fuel so that the
function is structurally recursive (each step consumes at least one
character, so `fuel = cs.length` never runs out). `prevIsWord` records
whether the character just before the current position is a word character
(for `\b`); it is `false` at the start of the string. -/
def findallGo : Nat → Bool → List Char → List (List Char)
  | 0, _, _ => []
  | _ + 1, _, [] => []
  | fuel + 1, prevIsWord, c :: rest =>
    if prevIsWord then findallGo fuel (isWordChar c) rest
    else
      match tryPairFrom (c :: rest) 15 with
      | some (grp, rest') => grp :: findallGo fuel true rest'
      | none => findallGo fuel (isWordChar c) rest

/-- `PAIR_RE.findall` over a character list. -/
def findallPairsL (prevIsWord : Bool) (cs : List Char) : List (List Char) :=
  findallGo cs.length prevIsWord cs

/-- `PAIR_RE.findall(s)`: the captured groups, in scan order, in their
original case. -/
def pairFindall (s : String) : List String :=
  (findallPairsL false s.data).map String.mk

/-- Python `str.upper()` over the ASCII range (`Char.toUpper` maps exactly
`'a'`–`'z'` to `'A'`–`'Z'`). -/
def toUpperStr (s : String) : String :=
  String.mk (s.data.map Char.toUpper)

/-- `[p.upper() for p in PAIR_RE.findall(line)]` — the pair tokens of one
line as the extractor uses them (uppercase-normalized). -/
def linePairs (s : String) : List String :=
  (pairFindall s).map toUpperStr

example : linePairs "BTCUSDT and ETHUSDT launch" = ["BTCUSDT", "ETHUSDT"] := by decide
example : linePairs "btcusdt" = [] := by decide
example : linePairs "btcUSDT" = [] := by decide
example : linePairs "XXBTCUSDTYY" = [] := by decide
example : linePairs "no pairs here" = [] := by decide
example : linePairs "BTCUSDTUSDT" = ["BTCUSDTUSDT"] := by decide
example : linePairs "a_BTCUSDT" = [] := by decide

/-! ## `utc_to_taipei`

The source parses `f"{date_str} {time_str}"` with
`datetime.strptime(..., "%Y-%m-%d %H:%M")`, attaches UTC, converts with
`astimezone(ZoneInfo("Asia/Taipei"))` and renders with
`strftime("%Y-%m-%d %H:%M (Asia/Taipei)")`.  A `ValueError`
(`MalformedTimestamp`) is raised when the components are not valid calendar
values.

The zone conversion consults the system tz database.  `Asia/Taipei` is a
constant UTC+8 with no daylight saving for every timestamp from 1980
onwards, and `TIME_LINE_RE` only ever captures years 2000–2099, so on every
input reachable from the extractor the conversion is exactly +480 minutes
and is modelled as such.  The model is NOT faithful for pre-1980 dates
(historically `Asia/Taipei` was +8:06 before 1896, +9 during 1937–1945 and
during summer daylight-saving periods through 1979); no extractor path
produces such a date, and no theorem below about `utc_to_taipei` concerns
that region — the conversion itself is therefore stated only through the
extractor or at concrete 20YY inputs. -/

def isLeap (y : Nat) : Bool :=
  (y % 4 = 0 && y % 100 ≠ 0) || y % 400 = 0

def daysInMonth (y m : Nat) : Nat :=
  if m = 2 then (if isLeap y then 29 else 28)
  else if m = 4 || m = 6 || m = 9 || m = 11 then 30
  else 31

def digitVal (c : Char) : Nat := c.toNat - 48

/-- The numeric value of two digit characters. -/
def twoDig (a b : Char) : Nat := digitVal a * 10 + digitVal b

/-- The numeric value of four digit characters. -/
def fourDig (a b c d : Char) : Nat := twoDig a b * 100 + twoDig c d

/-- `strptime` on the `%Y-%m-%d` part (fixed-width form, as produced by
`TIME_LINE_RE`), with `datetime`'s calendar validation. -/
def parseDate (s : String) : Option (Nat × Nat × Nat) :=
  match s.data with
  | [y1, y2, y3, y4, '-', mo1, mo2, '-', d1, d2] =>
    if isDigitC y1 && isDigitC y2 && isDigitC y3 && isDigitC y4 &&
        isDigitC mo1 && isDigitC mo2 && isDigitC d1 && isDigitC d2 then
      if 1 ≤ fourDig y1 y2 y3 y4 && 1 ≤ twoDig mo1 mo2 && twoDig mo1 mo2 ≤ 12 &&
          1 ≤ twoDig d1 d2 &&
          twoDig d1 d2 ≤ daysInMonth (fourDig y1 y2 y3 y4) (twoDig mo1 mo2) then
        some (fourDig y1 y2 y3 y4, twoDig mo1 mo2, twoDig d1 d2)
      else none
    else none
  | _ => none

/-- `strptime` on the `%H:%M` part (fixed-width form). -/
def parseTime (s : String) : Option (Nat × Nat) :=
  match s.data with
  | [h1, h2, ':', mi1, mi2] =>
    if isDigitC h1 && isDigitC h2 && isDigitC mi1 && isDigitC mi2 then
      if twoDig h1 h2 ≤ 23 && twoDig mi1 mi2 ≤ 59 then
        some (twoDig h1 h2, twoDig mi1 mi2)
      else none
    else none
  | _ => none

/-- The day after a valid calendar day (month and year rollover). -/
def nextDay (y m d : Nat) : Nat × Nat × Nat :=
  if d < daysInMonth y m then (y, m, d + 1)
  else if m < 12 then (y, m + 1, 1)
  else (y + 1, 1, 1)

def pad2 (n : Nat) : String :=
  if n < 10 then "0" ++ toString n else toString n

def pad4 (n : Nat) : String :=
  if n < 10 then "000" ++ toString n
  else if n < 100 then "00" ++ toString n
  else if n < 1000 then "0" ++ toString n
  else toString n

/-- `strftime("%Y-%m-%d %H:%M")`. -/
def renderDateTime (y m d hh mm : Nat) : String :=
  pad4 y ++ "-" ++ pad2 m ++ "-" ++ pad2 d ++ " " ++ pad2 hh ++ ":" ++ pad2 mm

/-- The civil date-time lying 480 minutes (8 hours) after the given one (for
in-range `hh`/`mm` — the only values `utc_to_taipei` can pass — the total
minute count is below two days, so at most one day is carried). -/
def shiftTaipei (y m d hh mm : Nat) : Nat × Nat × Nat × Nat × Nat :=
  if hh * 60 + mm + 480 < 1440 then
    (y, m, d, (hh * 60 + mm + 480) / 60, (hh * 60 + mm + 480) % 60)
  else
    ((nextDay y m d).1, (nextDay y m d).2.1, (nextDay y m d).2.2,
      (hh * 60 + mm + 480 - 1440) / 60, (hh * 60 + mm + 480 - 1440) % 60)

instance {ε α : Type} [DecidableEq ε] [DecidableEq α] : DecidableEq (Except ε α) :=
  fun a b =>
    match a, b with
    | .ok x, .ok y => if h : x = y then .isTrue (by rw [h]) else .isFalse (by simp [h])
    | .error x, .error y => if h : x = y then .isTrue (by rw [h]) else .isFalse (by simp [h])
    | .ok _, .error _ => .isFalse (by simp)
    | .error _, .ok _ => .isFalse (by simp)

/-- `utc_to_taipei(date_str, time_str)` of the source: `.error` models the
raised `ValueError`. -/
def utc_to_taipei (dateStr timeStr : String) : Except String String :=
  match parseDate dateStr, parseTime timeStr with
  | some (y, m, d), some (hh, mm) =>
    let r := shiftTaipei y m d hh mm
    .ok (renderDateTime r.1 r.2.1 r.2.2.1 r.2.2.2.1 r.2.2.2.2 ++ " (Asia/Taipei)")
  | _, _ => .error "MalformedTimestamp"

example : utc_to_taipei "2024-03-01" "08:00" = .ok "2024-03-01 16:00 (Asia/Taipei)" := by decide
example : utc_to_taipei "2024-02-29" "23:00" = .ok "2024-03-01 07:00 (Asia/Taipei)" := by decide
example : utc_to_taipei "2024-12-31" "16:30" = .ok "2025-01-01 00:30 (Asia/Taipei)" := by decide
example : utc_to_taipei "2024-13-01" "08:00" = .error "MalformedTimestamp" := by decide
example : utc_to_taipei "2023-02-29" "08:00" = .error "MalformedTimestamp" := by decide
example : utc_to_taipei "2024-03-01" "24:00" = .error "MalformedTimestamp" := by decide

/-! Absolute-time measure used to state that the conversion preserves the
instant: days in the proleptic Gregorian calendar, counted with the usual
leap rule, then minutes. -/

/-- Days contributed by the full months before month `m` in a year whose
leap status is `leap`. -/
def cumDays (leap : Bool) (m : Nat) : Nat :=
  match m with
  | 1 => 0
  | 2 => 31
  | 3 => if leap then 60 else 59
  | 4 => if leap then 91 else 90
  | 5 => if leap then 121 else 120
  | 6 => if leap then 152 else 151
  | 7 => if leap then 182 else 181
  | 8 => if leap then 213 else 212
  | 9 => if leap then 244 else 243
  | 10 => if leap then 274 else 273
  | 11 => if leap then 305 else 304
  | 12 => if leap then 335 else 334
  | _ => 0

/-- A day count for civil dates: full years before `y`, full months before
`m`, then the day. Monotone-correct up to a constant offset. -/
def civilDays (y m d : Nat) : Nat :=
  365 * (y - 1) + ((y - 1) / 4 - (y - 1) / 100) + (y - 1) / 400 +
    cumDays (isLeap y) m + d

/-- Absolute minutes of a civil date-time under `civilDays`. -/
def absMinutes (y m d hh mm : Nat) : Nat :=
  civilDays y m d * 1440 + hh * 60 + mm

/-- A valid calendar date (as validated by `datetime`). -/
def ValidDate (y m d : Nat) : Prop :=
  1 ≤ y ∧ 1 ≤ m ∧ m ≤ 12 ∧ 1 ≤ d ∧ d ≤ daysInMonth y m

instance (y m d : Nat) : Decidable (ValidDate y m d) := by
  unfold ValidDate; infer_instance

theorem cumDays_succ {y : Nat} {m : Nat} (h1 : 1 ≤ m) (h2 : m ≤ 11) :
    cumDays (isLeap y) (m + 1) = cumDays (isLeap y) m + daysInMonth y m := by
  interval_cases m <;>
    (cases hL : isLeap y <;> simp [cumDays, daysInMonth, hL])

theorem civilDays_nextDay {y m d : Nat} (hv : ValidDate y m d) :
    civilDays (nextDay y m d).1 (nextDay y m d).2.1 (nextDay y m d).2.2 =
      civilDays y m d + 1 := by
  obtain ⟨hy, hm1, hm2, hd1, hd2⟩ := hv
  unfold nextDay
  by_cases hlt : d < daysInMonth y m
  · simp only [hlt, if_true]
    simp [civilDays]
    omega
  · have hde : d = daysInMonth y m := by omega
    by_cases hm12 : m < 12
    · simp only [hlt, if_false, hm12, if_true]
      simp only [civilDays]
      have hc := cumDays_succ (y := y) hm1 (by omega)
      omega
    · have hme : m = 12 := by omega
      subst hme
      simp only [hlt, if_false, hm12]
      simp only [civilDays]
      have h12 : cumDays (isLeap y) 12 = if isLeap y then 335 else 334 := by
        cases hL : isLeap y <;> simp [cumDays, hL]
      have hd31 : d = 31 := by
        simp [daysInMonth] at hde
        omega
      subst hd31
      have h1cum : cumDays (isLeap (y + 1)) 1 = 0 := rfl
      rw [h1cum]
      have hsub : y + 1 - 1 = y := by omega
      rw [hsub, h12]
      have hleapiff : isLeap y = true ↔ ((y % 4 = 0 ∧ ¬y % 100 = 0) ∨ y % 400 = 0) := by
        simp [isLeap, Bool.or_eq_true, Bool.and_eq_true, decide_eq_true_eq, bne_iff_ne]
      by_cases hL : isLeap y = true
      · have hP := hleapiff.mp hL
        simp only [hL, if_true]
        omega
      · have hLf : isLeap y = false := Bool.eq_false_iff.mpr hL
        have hP : ¬((y % 4 = 0 ∧ ¬y % 100 = 0) ∨ y % 400 = 0) :=
          fun hp => hL (hleapiff.mpr hp)
        simp only [hLf, Bool.false_eq_true, if_false]
        omega

example : civilDays 2024 3 1 = civilDays 2024 2 29 + 1 := by decide
example : civilDays 2025 1 1 = civilDays 2024 12 31 + 1 := by decide
example : civilDays 2100 3 1 = civilDays 2100 2 28 + 1 := by decide

/-! ## `parse_pair_times_from_lines` -/

/-- One extracted fact (a `{"pair": …, "utc": …, "taipei": …}` dict of the
source). -/
structure Fact where
  pair : String
  utc : String
  taipei : String
deriving DecidableEq, Repr

/-- `f"{d} {t} UTC"`. -/
def mkUtcStr (d t : String) : String := d ++ " " ++ t ++ " UTC"

/-- The inner loop `for j in range(i+1, min(len(lines), i+1+max_follow_lines))`:
visit the indices in order, return the pair tokens of the first line that
has any, stopping there; `[]` if no line in the window has one. -/
def scanWindow (lines : List String) : List Nat → List String
  | [] => []
  | j :: js =>
    let ps := linePairs (lines.getD j "")
    if ps.isEmpty then scanWindow lines js else ps

/-- The index window `i+1 … min(len(lines), i+1+max_follow) - 1` scanned for
a marker at index `i`. -/
def windowIdxs (lines : List String) (maxFollow i : Nat) : List Nat :=
  List.range' (i + 1) (min lines.length (i + 1 + maxFollow) - (i + 1))

/-- The outer loop of `parse_pair_times_from_lines` over the given line
indices: at each `TimeMarker` line build `utc_str`/`tw_str` (propagating a
`ValueError` from `utc_to_taipei` as `.error`), scan the lookahead window,
and emit one fact per token of the first pair-bearing window line. -/
def collectFrom (lines : List String) (maxFollow : Nat) : List Nat → Except String (List Fact)
  | [] => .ok []
  | i :: is =>
    match timeLineMatch (lines.getD i "") with
    | none => collectFrom lines maxFollow is
    | some (d, t) =>
      match utc_to_taipei d t with
      | .error e => .error e
      | .ok tw =>
        let ps := scanWindow lines (windowIdxs lines maxFollow i)
        match collectFrom lines maxFollow is with
        | .error e => .error e
        | .ok rest => .ok (ps.map (fun p => ⟨p, mkUtcStr d t, tw⟩) ++ rest)

/-- The pre-dedup `results` list of `parse_pair_times_from_lines`. -/
def rawResults (lines : List String) (maxFollow : Nat) : Except String (List Fact) :=
  collectFrom lines maxFollow (List.range lines.length)

/-- The dedup key `(r["pair"], r["utc"])`. -/
def factKey (r : Fact) : String × String := (r.pair, r.utc)

/-- Insert into (or overwrite in place within) an insertion-ordered
association list — the behaviour of `uniq[(r["pair"], r["utc"])] = r` on a
Python dict. -/
def upsert (k : String × String) (v : Fact) :
    List ((String × String) × Fact) → List ((String × String) × Fact)
  | [] => [(k, v)]
  | (k', v') :: rest => if k' = k then (k', v) :: rest else (k', v') :: upsert k v rest

/-- The `uniq` dict comprehension plus `list(uniq.values())`. -/
def dedupByKey (rs : List Fact) : List Fact :=
  (rs.foldl (fun acc r => upsert (factKey r) r acc) []).map Prod.snd

/-- `parse_pair_times_from_lines(lines, max_follow_lines)`. -/
def parse_pair_times_from_lines (lines : List String) (maxFollow : Nat := 10) :
    Except String (List Fact) :=
  match rawResults lines maxFollow with
  | .error e => .error e
  | .ok rs => .ok (dedupByKey rs)

example :
    parse_pair_times_from_lines
      ["2024-03-01 08:00 (UTC)", "intro text", "BTCUSDT and ETHUSDT launch",
       "ADAUSDT unrelated footer"] 10 =
    .ok [⟨"BTCUSDT", "2024-03-01 08:00 UTC", "2024-03-01 16:00 (Asia/Taipei)"⟩,
         ⟨"ETHUSDT", "2024-03-01 08:00 UTC", "2024-03-01 16:00 (Asia/Taipei)"⟩] := by decide

example :
    parse_pair_times_from_lines ["2024-03-01 08:00 (UTC)", "x", "y", "BTCUSDT"] 1 =
    .ok [] := by decide

example :
    parse_pair_times_from_lines
      ["2024-03-01 08:00 (UTC)", "BTCUSDT", "2024-03-01 08:00 (UTC)", "BTCUSDT"] 10 =
    .ok [⟨"BTCUSDT", "2024-03-01 08:00 UTC", "2024-03-01 16:00 (Asia/Taipei)"⟩] := by decide

example :
    parse_pair_times_from_lines ["2024-13-01 08:00 (UTC)", "BTCUSDT"] 10 =
    .error "MalformedTimestamp" := by decide

example :
    parse_pair_times_from_lines
      ["2024-03-01 08:00 (UTC)", "2024-03-01 09:00 (UTC)", "BTCUSDT"] 10 =
    .ok [⟨"BTCUSDT", "2024-03-01 08:00 UTC", "2024-03-01 16:00 (Asia/Taipei)"⟩,
         ⟨"BTCUSDT", "2024-03-01 09:00 UTC", "2024-03-01 17:00 (Asia/Taipei)"⟩] := by decide

/-! ## `walk_text` / `extract_lines_from_content_json`

The document produced by `json.loads` is modelled as a tagged tree; objects
are insertion-ordered association lists (the iteration order of `json.loads`
dicts). -/

/-- A parsed JSON value. -/
inductive JsonVal where
  | str (s : String)
  | num (n : Int)
  | boolean (b : Bool)
  | null
  | arr (elems : List JsonVal)
  | obj (fields : List (String × JsonVal))

/-- `obj.get(key)` on the dict of an object node. -/
def lookupField (fields : List (String × JsonVal)) (key : String) : Option JsonVal :=
  match fields with
  | [] => none
  | (k, v) :: rest => if k = key then some v else lookupField rest key

/-- The `out.append(obj["content"])` step: the appended strings of one
object node before recursion. -/
def contentPart (fields : List (String × JsonVal)) : List String :=
  match lookupField fields "content" with
  | some (.str s) => [s]
  | _ => []

mutual

/-- `walk_text(obj, out)` of the source, returning the appended strings in
order: a dict appends its string-valued `"content"` field, then recurses
into all its values in insertion order; a list recurses into its elements in
order; every other value contributes nothing. -/
def walk_text : JsonVal → List String
  | .obj fields => contentPart fields ++ walkFields fields
  | .arr elems => walkElems elems
  | _ => []

/-- `for v in obj.values(): walk_text(v, out)`. -/
def walkFields : List (String × JsonVal) → List String
  | [] => []
  | (_, v) :: rest => walk_text v ++ walkFields rest

/-- `for v in obj: walk_text(v, out)`. -/
def walkElems : List JsonVal → List String
  | [] => []
  | v :: rest => walk_text v ++ walkElems rest

end

/-- Drop a maximal whitespace run, emitting one `' '` for it — the effect of
`re.sub(r"\s+", " ", p)` scanned left to right. `prevWs` is true when the
previous character was part of a whitespace run already emitted. -/
def collapseWsGo (prevWs : Bool) : List Char → List Char
  | [] => []
  | c :: cs =>
    if isWs c then
      if prevWs then collapseWsGo true cs else ' ' :: collapseWsGo true cs
    else c :: collapseWsGo false cs

/-- `str.strip()` (whitespace at both ends). -/
def stripWs (l : List Char) : List Char :=
  ((dropWs ((dropWs l).reverse)).reverse)

/-- `re.sub(r"\s+", " ", p).strip()`. -/
def normalizeLine (s : String) : String :=
  String.mk (stripWs (collapseWsGo false s.data))

/-- `extract_lines_from_content_json` after `json.loads`: walk the tree,
normalize each collected part, and keep the non-empty results in order. -/
def extract_lines_from_content_json (j : JsonVal) : List String :=
  (walk_text j).filterMap fun p =>
    if normalizeLine p = "" then none else some (normalizeLine p)

example :
    extract_lines_from_content_json
      (.obj [("content", .str "A"),
             ("children", .arr [.obj [("content", .str "B")],
                                .obj [("content", .str "C")]])]) =
    ["A", "B", "C"] := by decide

example : normalizeLine "  a \t\n b  " = "a b" := by decide
example : normalizeLine " \t " = "" := by decide
example :
    extract_lines_from_content_json
      (.obj [("content", .str "  "), ("k", .num 3), ("l", .null)]) = [] := by decide

/-! ## Novelty filter, message sorting, and end-of-run persistence

These model the relevant parts of `make_key`, the `for r in rows: …` loop of
`main`, `format_message`'s `sorted(new_rows, key=lambda x: (x["utc"],
x["pair"]))`, `save_state`, and the tail of `main`.  The `seen` set is
modelled as a list queried by membership; the two outbound effects (the
Discord call and the file system) are modelled by a success flag and by an
explicit operation trace. -/

/-- `make_key(code, pair, utc)`. -/
def make_key (code pair utc : String) : String :=
  code ++ "|" ++ pair ++ "|" ++ utc

/-- The per-article novelty loop of `main`: returns `(new_rows,
new_keys_in_order)`; a row is kept iff its key is not in `seen`. -/
def noveltyFilter (rows : List Fact) (code : String) (seen : List String) :
    List Fact × List String :=
  match rows with
  | [] => ([], [])
  | r :: rest =>
    let p := noveltyFilter rest code seen
    if make_key code r.pair r.utc ∈ seen then p
    else (r :: p.1, make_key code r.pair r.utc :: p.2)

/-- Python string `<`: lexicographic comparison of code points. -/
def strLtL : List Char → List Char → Bool
  | [], [] => false
  | [], _ :: _ => true
  | _ :: _, [] => false
  | a :: as, b :: bs => if a = b then strLtL as bs else decide (a.toNat < b.toNat)

def strLt (a b : String) : Bool := strLtL a.data b.data

/-- Python string `<=`. -/
def strLe (a b : String) : Bool := !strLt b a

theorem strLtL_asymm : ∀ {a b : List Char}, strLtL a b = true → strLtL b a = false := by
  intro a
  induction a with
  | nil =>
    intro b h
    cases b with
    | nil => simp [strLtL] at h
    | cons c cs => simp [strLtL]
  | cons x xs ih =>
    intro b h
    cases b with
    | nil => simp [strLtL] at h
    | cons c cs =>
      by_cases hxc : x = c
      · subst hxc
        simp only [strLtL, if_pos rfl] at h ⊢
        exact ih h
      · have hcx : ¬c = x := fun he => hxc he.symm
        simp only [strLtL, if_neg hxc, decide_eq_true_eq] at h
        simp only [strLtL, if_neg hcx, decide_eq_false_iff_not]
        omega

theorem strLtL_trans : ∀ {a b c : List Char},
    strLtL a b = true → strLtL b c = true → strLtL a c = true := by
  intro a
  induction a with
  | nil =>
    intro b c hab hbc
    cases b with
    | nil => simp [strLtL] at hab
    | cons y ys =>
      cases c with
      | nil => simp [strLtL] at hbc
      | cons z zs => simp [strLtL]
  | cons x xs ih =>
    intro b c hab hbc
    cases b with
    | nil => simp [strLtL] at hab
    | cons y ys =>
      cases c with
      | nil => simp [strLtL] at hbc
      | cons z zs =>
        by_cases hxy : x = y <;> by_cases hyz : y = z
        · subst hxy; subst hyz
          simp only [strLtL, if_pos rfl] at hab hbc ⊢
          exact ih hab hbc
        · subst hxy
          simp only [strLtL, if_pos rfl] at hab
          simp only [strLtL, if_neg hyz] at hbc ⊢
          exact hbc
        · subst hyz
          simp only [strLtL, if_pos rfl] at hbc
          simp only [strLtL, if_neg hxy] at hab ⊢
          exact hab
        · simp only [strLtL, if_neg hxy, decide_eq_true_eq] at hab
          simp only [strLtL, if_neg hyz, decide_eq_true_eq] at hbc
          have hxz : x.toNat < z.toNat := by omega
          have hxzne : ¬x = z := by
            intro he
            subst he
            omega
          simp only [strLtL, if_neg hxzne, decide_eq_true_eq]
          exact hxz

theorem strLtL_trichotomy : ∀ (a b : List Char),
    strLtL a b = true ∨ a = b ∨ strLtL b a = true := by
  intro a
  induction a with
  | nil =>
    intro b
    cases b with
    | nil => exact Or.inr (Or.inl rfl)
    | cons c cs => exact Or.inl (by simp [strLtL])
  | cons x xs ih =>
    intro b
    cases b with
    | nil => exact Or.inr (Or.inr (by simp [strLtL]))
    | cons c cs =>
      by_cases hxc : x = c
      · subst hxc
        rcases ih cs with h | h | h
        · exact Or.inl (by simp only [strLtL, if_pos rfl]; exact h)
        · exact Or.inr (Or.inl (by rw [h]))
        · exact Or.inr (Or.inr (by simp only [strLtL, if_pos rfl]; exact h))
      · have hcx : ¬c = x := fun he => hxc he.symm
        have hne : x.toNat ≠ c.toNat := by
          intro he
          apply hxc
          rw [← Char.ofNat_toNat x, he, Char.ofNat_toNat]
        rcases Nat.lt_or_ge x.toNat c.toNat with h | h
        · exact Or.inl (by simp only [strLtL, if_neg hxc, decide_eq_true_eq]; exact h)
        · refine Or.inr (Or.inr ?_)
          simp only [strLtL, if_neg hcx, decide_eq_true_eq]
          omega

/-- The sort key order of `format_message`: ascending `(utc, pair)` tuples
(Python tuple comparison over Python string comparison). -/
def factLe (a b : Fact) : Prop :=
  strLt a.utc b.utc = true ∨ (a.utc = b.utc ∧ strLe a.pair b.pair = true)

instance : DecidableRel factLe := fun a b =>
  if h1 : strLt a.utc b.utc = true then .isTrue (Or.inl h1)
  else if h2 : a.utc = b.utc ∧ strLe a.pair b.pair = true then .isTrue (Or.inr h2)
  else .isFalse (fun hc => hc.elim h1 h2)

theorem strLe_total (a b : String) : strLe a b = true ∨ strLe b a = true := by
  rcases strLtL_trichotomy a.data b.data with h | h | h
  · left
    simp only [strLe, strLt, Bool.not_eq_true']
    exact strLtL_asymm h
  · left
    simp only [strLe, strLt, h, Bool.not_eq_true']
    cases hlt : strLtL b.data b.data with
    | false => rfl
    | true => exact absurd (strLtL_asymm hlt) (by simp [hlt])
  · right
    simp only [strLe, strLt, Bool.not_eq_true']
    exact strLtL_asymm h

theorem strEq_of_data_eq {a b : String} (h : a.data = b.data) : a = b := by
  cases a
  cases b
  exact congrArg String.mk h

instance : IsTotal Fact factLe where
  total a b := by
    unfold factLe
    rcases strLtL_trichotomy a.utc.data b.utc.data with h | h | h
    · exact Or.inl (Or.inl h)
    · have he : a.utc = b.utc := strEq_of_data_eq h
      rcases strLe_total a.pair b.pair with hp | hp
      · exact Or.inl (Or.inr ⟨he, hp⟩)
      · exact Or.inr (Or.inr ⟨he.symm, hp⟩)
    · exact Or.inr (Or.inl h)

theorem strLe_trans {a b c : String} (h1 : strLe a b = true) (h2 : strLe b c = true) :
    strLe a c = true := by
  simp only [strLe, strLt, Bool.not_eq_true'] at h1 h2 ⊢
  cases hca : strLtL c.data a.data with
  | false => rfl
  | true =>
    rcases strLtL_trichotomy b.data c.data with hbc | hbc | hbc
    · have := strLtL_trans hbc hca
      rw [this] at h1
      exact h1
    · rw [hbc] at h1
      rw [hca] at h1
      exact h1
    · rw [hbc] at h2
      exact h2

instance : IsTrans Fact factLe where
  trans a b c hab hbc := by
    unfold factLe at *
    rcases hab with h1 | ⟨h1, h1p⟩ <;> rcases hbc with h2 | ⟨h2, h2p⟩
    · exact Or.inl (strLtL_trans h1 h2)
    · exact Or.inl (by rw [← h2]; exact h1)
    · exact Or.inl (by rw [h1]; exact h2)
    · exact Or.inr ⟨h1.trans h2, strLe_trans h1p h2p⟩

/-- `sorted(new_rows, key=lambda x: (x["utc"], x["pair"]))` — Python's sort
is stable, as is insertion sort, so the two agree as functions. -/
def sortRows (rows : List Fact) : List Fact :=
  List.insertionSort factLe rows

/-- `format_message(title, link, new_rows)`. -/
def format_message (title : String) (link : String) (newRows : List Fact) : String :=
  String.intercalate "\n"
    ([s!"📢 **{title}**", link] ++
      (sortRows newRows).map fun r => "- **" ++ r.pair ++ "** | " ++ r.utc ++ " | " ++ r.taipei)

/-- A file-system operation performed by the run. -/
inductive FsOp where
  | write (path : String) (contents : String)
  | rename (src dst : String)
deriving DecidableEq, Repr

/-- `json.dump({"seen": sorted(seen)}, …)` — the serialized state body. -/
def encodeState (seenSorted : List String) : String :=
  "\x7b\"seen\": [" ++ String.intercalate ", " (seenSorted.map (fun s => "\"" ++ s ++ "\"")) ++ "]\x7d"

/-- `save_state(state, path)`: write the temp file, then atomically rename
it over the target (`os.replace`). -/
def save_state_ops (statePath : String) (seenSorted : List String) : List FsOp :=
  [.write (statePath ++ ".tmp") (encodeState seenSorted),
   .rename (statePath ++ ".tmp") statePath]

/-- `sorted(seen)` on the updated seen set (`set` semantics: duplicates
collapse; rendering is sorted). -/
def sortedSeen (seen : List String) : List String :=
  List.insertionSort (fun a b => strLe a b = true) seen.dedup

/-- The outcome of the tail of `main` (everything after the per-article
loop): the file-system trace, the final in-process seen set, the log line,
and the propagated exception if any. -/
structure RunEnd where
  ops : List FsOp
  seenAfter : List String
  log : Option String
  err : Option String
deriving Repr

/-- The tail of `main`: if any payload was built, notify; a notifier failure
raises before any key is marked seen and before any file write; on success
all new keys are added and the state is saved atomically; with no payloads
nothing is written and "no updates" is logged.  `notifyOk` is the outcome of
the outbound `send_discord` call (false covers both the unset-webhook
`RuntimeError` and an HTTP failure). -/
def mainFinish (statePath : String) (seen : List String) (allNewKeys : List String)
    (pushPayloads : List String) (notifyOk : Bool) : RunEnd :=
  if pushPayloads.isEmpty then
    ⟨[], seen, some "no updates", none⟩
  else if notifyOk then
    let seen2 := seen ++ allNewKeys
    ⟨save_state_ops statePath (sortedSeen seen2), seen2,
      some ("sent " ++ toString allNewKeys.length ++ " new items"), none⟩
  else
    ⟨[], seen, none, some "NotifierDeliveryFailure"⟩

/-- One article as consumed by the per-article loop of `main`: its title,
its code, and the rows extracted from its body. -/
structure ArticleData where
  title : String
  code : String
  rows : List Fact
deriving Repr

/-- The per-article loop of `main` (lines building `all_new_keys` and
`push_payloads`): each article's rows are filtered against the *initial*
seen set; a message is pushed only for articles with at least one new row. -/
def processArticles (arts : List ArticleData) (seen : List String) :
    List String × List String :=
  match arts with
  | [] => ([], [])
  | a :: rest =>
    let nf := noveltyFilter a.rows a.code seen
    let p := processArticles rest seen
    (nf.2 ++ p.1,
     (if nf.1.isEmpty then [] else [format_message a.title ("link:" ++ a.code) nf.1]) ++ p.2)

example :
    noveltyFilter
      [⟨"BTCUSDT", "2024-03-01 08:00 UTC", "x"⟩, ⟨"ETHUSDT", "2024-03-02 08:00 UTC", "y"⟩]
      "codeX" ["codeX|BTCUSDT|2024-03-01 08:00 UTC"] =
    ([⟨"ETHUSDT", "2024-03-02 08:00 UTC", "y"⟩], ["codeX|ETHUSDT|2024-03-02 08:00 UTC"]) := by
  decide

example :
    sortRows [⟨"ETHUSDT", "2024-03-02 08:00 UTC", "y"⟩, ⟨"ADAUSDT", "2024-03-02 08:00 UTC", "y"⟩,
              ⟨"ZECUSDT", "2024-03-01 09:00 UTC", "z"⟩] =
    [⟨"ZECUSDT", "2024-03-01 09:00 UTC", "z"⟩, ⟨"ADAUSDT", "2024-03-02 08:00 UTC", "y"⟩,
     ⟨"ETHUSDT", "2024-03-02 08:00 UTC", "y"⟩] := by decide

/-! ## A declarative description of the `TimeMarker` line shape

`SpecTimeMarkerStated` is the shape exactly as the specification words it
("a date in `YYYY-MM-DD` form, whitespace, a time in `HH:MM` form, optional
whitespace, the case-insensitive parenthesized `(UTC)`, an optional trailing
colon, optional trailing whitespace — and nothing else").
`SpecTimeMarkerAmended` is the shape the code actually recognizes: the year
must begin with `20`, and whitespace is also allowed between `(UTC)` and the
trailing colon. -/

/-- A date in `YYYY-MM-DD` form: any four digits, dash, two digits, dash,
two digits. -/
def SpecDate (l : List Char) : Prop :=
  ∃ y1 y2 y3 y4 mo1 mo2 d1 d2 : Char,
    l = [y1, y2, y3, y4, '-', mo1, mo2, '-', d1, d2] ∧
    isDigitC y1 = true ∧ isDigitC y2 = true ∧ isDigitC y3 = true ∧ isDigitC y4 = true ∧
    isDigitC mo1 = true ∧ isDigitC mo2 = true ∧ isDigitC d1 = true ∧ isDigitC d2 = true

/-- The date shape of `TIME_LINE_RE`: `YYYY-MM-DD` with the year starting
`20`. -/
def SpecDate20 (l : List Char) : Prop := SpecDate l ∧ l.take 2 = ['2', '0']

/-- A time in `HH:MM` form: two digits, colon, two digits. -/
def SpecTime (l : List Char) : Prop :=
  ∃ h1 h2 mi1 mi2 : Char,
    l = [h1, h2, ':', mi1, mi2] ∧
    isDigitC h1 = true ∧ isDigitC h2 = true ∧ isDigitC mi1 = true ∧ isDigitC mi2 = true

/-- The case-insensitive parenthesized `(UTC)` token. -/
def SpecUTCtok (l : List Char) : Prop :=
  ∃ u t c : Char,
    l = ['(', u, t, c, ')'] ∧
    (u = 'U' ∨ u = 'u') ∧ (t = 'T' ∨ t = 't') ∧ (c = 'C' ∨ c = 'c')

/-- The `TimeMarker` line shape exactly as the spec sentence lists it. -/
def SpecTimeMarkerStated (cs : List Char) : Prop :=
  ∃ d w1 t w2 u col w3,
    cs = d ++ w1 ++ t ++ w2 ++ u ++ col ++ w3 ∧
    SpecDate d ∧ w1 ≠ [] ∧ wsOnly w1 ∧ SpecTime t ∧ wsOnly w2 ∧
    SpecUTCtok u ∧ (col = [] ∨ col = [':']) ∧ wsOnly w3

/-- The `TimeMarker` line shape recognized by `TIME_LINE_RE`: as the stated
shape but with the year restricted to `20YY` and with optional whitespace
also allowed between `(UTC)` and the trailing colon. -/
def SpecTimeMarkerAmended (cs : List Char) : Prop :=
  ∃ d w1 t w2 u w3 col w4,
    cs = d ++ w1 ++ t ++ w2 ++ u ++ w3 ++ col ++ w4 ∧
    SpecDate20 d ∧ w1 ≠ [] ∧ wsOnly w1 ∧ SpecTime t ∧ wsOnly w2 ∧
    SpecUTCtok u ∧ wsOnly w3 ∧ (col = [] ∨ col = [':']) ∧ wsOnly w4

theorem wsOnly_append {a b : List Char} (ha : wsOnly a) (hb : wsOnly b) :
    wsOnly (a ++ b) := by
  intro c hc
  rcases List.mem_append.1 hc with h | h
  · exact ha c h
  · exact hb c h

theorem matchDate_sound {cs d r : List Char} (h : matchDate cs = some (d, r)) :
    cs = d ++ r ∧ SpecDate20 d := by
  unfold matchDate at h
  split at h
  · rename_i y3 y4 mo1 mo2 d1 d2 rest
    split at h
    · rename_i hdig
      simp only [Bool.and_eq_true] at hdig
      obtain ⟨⟨⟨⟨⟨h3, h4⟩, h5⟩, h6⟩, h7⟩, h8⟩ := hdig
      simp only [Option.some.injEq, Prod.mk.injEq] at h
      obtain ⟨hd, hr⟩ := h
      subst hd
      subst hr
      exact ⟨rfl, ⟨'2', '0', y3, y4, mo1, mo2, d1, d2, rfl,
        by decide, by decide, h3, h4, h5, h6, h7, h8⟩, rfl⟩
    · simp at h
  · simp at h

theorem matchDate_complete {d : List Char} (hd : SpecDate20 d) (r : List Char) :
    matchDate (d ++ r) = some (d, r) := by
  obtain ⟨⟨y1, y2, y3, y4, mo1, mo2, d1, d2, he, _, _, h3, h4, h5, h6, h7, h8⟩, htake⟩ := hd
  subst he
  simp only [List.take, List.cons.injEq, and_true] at htake
  obtain ⟨rfl, rfl⟩ := htake
  simp [matchDate, h3, h4, h5, h6, h7, h8]

theorem matchTime_sound {cs t r : List Char} (h : matchTime cs = some (t, r)) :
    cs = t ++ r ∧ SpecTime t := by
  unfold matchTime at h
  split at h
  · rename_i h1 h2 mi1 mi2 rest
    split at h
    · rename_i hdig
      simp only [Bool.and_eq_true] at hdig
      obtain ⟨⟨⟨ha, hb⟩, hc⟩, hd⟩ := hdig
      simp only [Option.some.injEq, Prod.mk.injEq] at h
      obtain ⟨ht, hr⟩ := h
      subst ht
      subst hr
      exact ⟨rfl, ⟨h1, h2, mi1, mi2, rfl, ha, hb, hc, hd⟩⟩
    · simp at h
  · simp at h

theorem matchTime_complete {t : List Char} (ht : SpecTime t) (r : List Char) :
    matchTime (t ++ r) = some (t, r) := by
  obtain ⟨h1, h2, mi1, mi2, he, ha, hb, hc, hd⟩ := ht
  subst he
  simp [matchTime, ha, hb, hc, hd]

theorem matchUTCtok_sound {cs r : List Char} (h : matchUTCtok cs = some r) :
    ∃ u, cs = u ++ r ∧ SpecUTCtok u := by
  unfold matchUTCtok at h
  split at h
  · rename_i u t c rest
    split at h
    · rename_i hcond
      simp only [Bool.and_eq_true, Bool.or_eq_true, decide_eq_true_eq] at hcond
      obtain ⟨⟨hu, ht⟩, hc⟩ := hcond
      simp only [Option.some.injEq] at h
      subst h
      exact ⟨['(', u, t, c, ')'], rfl, ⟨u, t, c, rfl, hu, ht, hc⟩⟩
    · simp at h
  · simp at h

theorem matchUTCtok_complete {u : List Char} (hu : SpecUTCtok u) (r : List Char) :
    matchUTCtok (u ++ r) = some r := by
  obtain ⟨a, b, c, he, ha, hb, hc⟩ := hu
  subst he
  rcases ha with rfl | rfl <;> rcases hb with rfl | rfl <;> rcases hc with rfl | rfl <;>
    simp [matchUTCtok]

theorem dropWs1_sound {l r : List Char} (h : dropWs1 l = some r) :
    ∃ w, wsOnly w ∧ w ≠ [] ∧ l = w ++ r := by
  cases l with
  | nil => simp [dropWs1] at h
  | cons c cs =>
    by_cases hc : isWs c = true
    · simp only [dropWs1, hc, if_true, Option.some.injEq] at h
      subst h
      obtain ⟨w, hw, he⟩ := dropWs_decomp cs
      refine ⟨c :: w, ?_, by simp, ?_⟩
      · intro x hx
        rcases List.mem_cons.1 hx with rfl | hx
        · exact hc
        · exact hw x hx
      · simp only [List.cons_append]
        exact congrArg (c :: ·) he
    · simp [dropWs1, hc] at h

theorem dropWs1_complete {w r : List Char} (hw : wsOnly w) (hne : w ≠ [])
    (hr : dropWs r = r) : dropWs1 (w ++ r) = some r := by
  cases w with
  | nil => exact absurd rfl hne
  | cons c cs =>
    have hc : isWs c = true := hw c (List.mem_cons_self c cs)
    have hcs : wsOnly cs := fun x hx => hw x (List.mem_cons_of_mem c hx)
    simp only [List.cons_append, dropWs1, hc, if_true, Option.some.injEq]
    rw [dropWs_append_wsOnly hcs, hr]

theorem matchTail_iff (r : List Char) :
    matchTail r = true ↔
      ∃ w1 col w2, r = w1 ++ col ++ w2 ∧ wsOnly w1 ∧ (col = [] ∨ col = [':']) ∧ wsOnly w2 := by
  constructor
  · intro h
    unfold matchTail at h
    split at h
    · rename_i hnil
      exact ⟨r, [], [], by simp, wsOnly_of_dropWs_eq_nil hnil, Or.inl rfl, wsOnly_nil⟩
    · rename_i rest hcolon
      have hrest : wsOnly rest := wsOnly_of_dropWs_eq_nil (by simpa using h)
      obtain ⟨w, hw, he⟩ := dropWs_decomp r
      rw [hcolon] at he
      exact ⟨w, [':'], rest, by simpa using he, hw, Or.inr rfl, hrest⟩
    · simp at h
  · rintro ⟨w1, col, w2, he, hw1, hcol, hw2⟩
    subst he
    rcases hcol with rfl | rfl
    · have : wsOnly (w1 ++ [] ++ w2) := by
        simp only [List.append_nil]
        exact wsOnly_append hw1 hw2
      unfold matchTail
      rw [dropWs_eq_nil_of_wsOnly this]
    · have hd : dropWs (w1 ++ [':'] ++ w2) = ':' :: w2 := by
        rw [List.append_assoc, dropWs_append_wsOnly hw1]
        exact dropWs_cons_of_not_ws isWs_colon w2
      unfold matchTail
      rw [hd]
      simp [dropWs_eq_nil_of_wsOnly hw2]

theorem timeLineMatchL_sound {cs : List Char} {x : List Char × List Char}
    (h : timeLineMatchL cs = some x) : SpecTimeMarkerAmended cs := by
  unfold timeLineMatchL at h
  split at h
  · simp at h
  · rename_i d r1 hdate
    split at h
    · simp at h
    · rename_i r2 hws1
      split at h
      · simp at h
      · rename_i t r3 htime
        split at h
        · simp at h
        · rename_i r5 hutc
          split at h
          · rename_i htail
            obtain ⟨hcs, hd20⟩ := matchDate_sound hdate
            obtain ⟨w1, hw1, hw1ne, hr1⟩ := dropWs1_sound hws1
            obtain ⟨hr2, ht⟩ := matchTime_sound htime
            obtain ⟨u, hdr3, hu⟩ := matchUTCtok_sound hutc
            obtain ⟨w2, hw2, hr3⟩ := dropWs_decomp r3
            obtain ⟨w3, col, w4, hr5, hw3, hcol, hw4⟩ := (matchTail_iff r5).mp htail
            refine ⟨d, w1, t, w2, u, w3, col, w4, ?_, hd20, hw1ne, hw1, ht, hw2, hu,
              hw3, hcol, hw4⟩
            rw [hcs, hr1, hr2, hr3, hdr3, hr5]
            simp [List.append_assoc]
          · simp at h

theorem timeLineMatchL_complete {cs : List Char} (h : SpecTimeMarkerAmended cs) :
    ∃ p, timeLineMatchL cs = some p := by
  obtain ⟨d, w1, t, w2, u, w3, col, w4, he, hd20, hw1ne, hw1, ht, hw2, hu, hw3, hcol, hw4⟩ := h
  have e1 : cs = d ++ (w1 ++ (t ++ (w2 ++ (u ++ (w3 ++ col ++ w4))))) := by
    rw [he]
    simp [List.append_assoc]
  have htHead : dropWs (t ++ (w2 ++ (u ++ (w3 ++ col ++ w4)))) =
      t ++ (w2 ++ (u ++ (w3 ++ col ++ w4))) := by
    obtain ⟨h1, h2, mi1, mi2, hte, hh1, -, -, -⟩ := ht
    rw [hte]
    exact dropWs_cons_of_not_ws (isWs_false_of_isDigitC hh1) _
  have huHead : dropWs (w2 ++ (u ++ (w3 ++ col ++ w4))) = u ++ (w3 ++ col ++ w4) := by
    rw [dropWs_append_wsOnly hw2]
    obtain ⟨a, b, c, hue, -, -, -⟩ := hu
    rw [hue]
    exact dropWs_cons_of_not_ws isWs_lparen _
  have htail : matchTail (w3 ++ col ++ w4) = true :=
    (matchTail_iff _).mpr ⟨w3, col, w4, rfl, hw3, hcol, hw4⟩
  refine ⟨(d, t), ?_⟩
  rw [e1]
  simp only [timeLineMatchL, matchDate_complete hd20, dropWs1_complete hw1 hw1ne htHead,
    matchTime_complete ht, huHead, matchUTCtok_complete hu, htail, if_true]

/-! ## Characterizing the extractor's lookahead association

`firstPairIdx` is the declarative reading of the window scan: the least
index of a pair-bearing line in the marker's lookahead window.
`markerContribution` is the declarative reading of what one line index
contributes to the pre-dedup `results` list. -/

/-- The first pair-bearing line index in the lookahead window of a marker at
index `i`, if any. -/
def firstPairIdx (lines : List String) (maxFollow i : Nat) : Option Nat :=
  (windowIdxs lines maxFollow i).find? fun j => !(linePairs (lines.getD j "")).isEmpty

/-- The facts a marker `(d, t)` at index `i` emits: one per token of the
first pair-bearing window line, none when the window has no pair. -/
def markerFacts (lines : List String) (maxFollow i : Nat) (d t tw : String) : List Fact :=
  match firstPairIdx lines maxFollow i with
  | some j => (linePairs (lines.getD j "")).map fun p => ⟨p, mkUtcStr d t, tw⟩
  | none => []

/-- What line index `i` contributes to the pre-dedup `results` list (empty
for non-marker lines and for markers whose timestamp does not convert). -/
def markerContribution (lines : List String) (maxFollow i : Nat) : List Fact :=
  match timeLineMatch (lines.getD i "") with
  | none => []
  | some (d, t) =>
    match utc_to_taipei d t with
    | .error _ => []
    | .ok tw => markerFacts lines maxFollow i d t tw

theorem scanWindow_eq_find (lines : List String) (js : List Nat) :
    scanWindow lines js =
      match js.find? (fun j => !(linePairs (lines.getD j "")).isEmpty) with
      | some j => linePairs (lines.getD j "")
      | none => [] := by
  induction js with
  | nil => rfl
  | cons j js ih =>
    cases hp : (linePairs (lines.getD j "")).isEmpty with
    | true =>
      simp only [scanWindow, List.find?, hp, Bool.not_true, if_true]
      exact ih
    | false =>
      simp only [scanWindow, List.find?, hp, Bool.not_false]
      simp

theorem scanWindow_map_eq_markerFacts (lines : List String) (maxFollow i : Nat)
    (d t tw : String) :
    (scanWindow lines (windowIdxs lines maxFollow i)).map
        (fun p => Fact.mk p (mkUtcStr d t) tw) =
      markerFacts lines maxFollow i d t tw := by
  rw [scanWindow_eq_find]
  unfold markerFacts firstPairIdx
  cases (windowIdxs lines maxFollow i).find? fun j => !(linePairs (lines.getD j "")).isEmpty with
  | none => rfl
  | some j => rfl

/-- The pre-dedup `results` list is the in-order concatenation of the
per-marker contributions. -/
theorem collectFrom_ok_eq (lines : List String) (maxFollow : Nat) :
    ∀ js rs, collectFrom lines maxFollow js = .ok rs →
      rs = js.flatMap (markerContribution lines maxFollow) := by
  intro js
  induction js with
  | nil =>
    intro rs h
    simp only [collectFrom, Except.ok.injEq] at h
    simp [← h]
  | cons i is ih =>
    intro rs h
    unfold collectFrom at h
    split at h
    · rename_i hm
      rw [List.flatMap_cons]
      have hc : markerContribution lines maxFollow i = [] := by
        simp only [markerContribution, hm]
      rw [hc, List.nil_append]
      exact ih rs h
    · rename_i d t hm
      split at h
      · simp at h
      · rename_i tw hutc
        split at h
        · simp at h
        · rename_i rest hrest
          simp only [Except.ok.injEq] at h
          subst h
          rw [List.flatMap_cons]
          have hc : markerContribution lines maxFollow i =
              (scanWindow lines (windowIdxs lines maxFollow i)).map
                (fun p => Fact.mk p (mkUtcStr d t) tw) := by
            simp only [markerContribution, hm, hutc]
            rw [scanWindow_map_eq_markerFacts]
          rw [hc]
          exact congrArg _ (ih rest hrest)

/-- A successful extraction implies every marker's timestamp converted. -/
theorem collectFrom_ok_utc (lines : List String) (maxFollow : Nat) :
    ∀ js rs, collectFrom lines maxFollow js = .ok rs →
      ∀ i ∈ js, ∀ d t, timeLineMatch (lines.getD i "") = some (d, t) →
        ∃ tw, utc_to_taipei d t = .ok tw := by
  intro js
  induction js with
  | nil =>
    intro rs _ i hi
    cases hi
  | cons i is ih =>
    intro rs h k hk d t hm
    unfold collectFrom at h
    rcases List.mem_cons.1 hk with rfl | hk'
    · simp only [hm] at h
      split at h
      · rename_i e he
        simp at h
      · rename_i tw hutc
        exact ⟨tw, hutc⟩
    · split at h
      · exact ih rs h k hk' d t hm
      · split at h
        · simp at h
        · split at h
          · simp at h
          · rename_i rest hrest
            exact ih rest hrest k hk' d t hm

/-- Soundness facts about `firstPairIdx`: it lies in the window, its line
bears a pair token, and every earlier window line bears none. -/
theorem find?_range'_min {p : Nat → Bool} :
    ∀ {n a j : Nat}, (List.range' a n).find? p = some j →
      a ≤ j ∧ j < a + n ∧ p j = true ∧ ∀ k, a ≤ k → k < j → p k = false := by
  intro n
  induction n with
  | zero =>
    intro a j h
    simp [List.range'] at h
  | succ m ih =>
    intro a j h
    rw [List.range'_succ] at h
    by_cases hpa : p a = true
    · rw [List.find?_cons_of_pos _ hpa] at h
      simp only [Option.some.injEq] at h
      subst h
      exact ⟨Nat.le_refl _, by omega, hpa, fun k hk1 hk2 => absurd hk1 (by omega)⟩
    · rw [List.find?_cons_of_neg _ (by simp [hpa])] at h
      obtain ⟨h1, h2, h3, h4⟩ := ih h
      refine ⟨by omega, by omega, h3, ?_⟩
      intro k hk1 hk2
      rcases Nat.eq_or_lt_of_le hk1 with rfl | hlt
      · exact Bool.eq_false_iff.mpr hpa
      · exact h4 k hlt hk2

theorem find?_range'_none {p : Nat → Bool} {n a : Nat}
    (h : (List.range' a n).find? p = none) :
    ∀ k, a ≤ k → k < a + n → p k = false := by
  intro k hk1 hk2
  have hmem : k ∈ List.range' a n := by
    rw [List.mem_range']
    exact ⟨k - a, by omega, by omega⟩
  have := List.find?_eq_none.mp h k hmem
  exact Bool.eq_false_iff.mpr this

theorem firstPairIdx_some_spec {lines : List String} {maxFollow i j : Nat}
    (h : firstPairIdx lines maxFollow i = some j) :
    i + 1 ≤ j ∧ j < min lines.length (i + 1 + maxFollow) ∧
      linePairs (lines.getD j "") ≠ [] ∧
      ∀ k, i + 1 ≤ k → k < j → linePairs (lines.getD k "") = [] := by
  unfold firstPairIdx windowIdxs at h
  obtain ⟨h1, h2, h3, h4⟩ := find?_range'_min h
  refine ⟨h1, by omega, ?_, ?_⟩
  · simp only [Bool.not_eq_true', List.isEmpty_eq_false] at h3
    exact h3
  · intro k hk1 hk2
    have := h4 k hk1 hk2
    simp only [Bool.not_eq_false', List.isEmpty_eq_true] at this
    exact this

theorem firstPairIdx_none_spec {lines : List String} {maxFollow i : Nat}
    (h : firstPairIdx lines maxFollow i = none) :
    ∀ k, i + 1 ≤ k → k < min lines.length (i + 1 + maxFollow) →
      linePairs (lines.getD k "") = [] := by
  unfold firstPairIdx windowIdxs at h
  intro k hk1 hk2
  have := find?_range'_none h k hk1 (by omega)
  simp only [Bool.not_eq_false', List.isEmpty_eq_true] at this
  exact this

/-! ## Dedup properties (the `uniq` dict of `parse_pair_times_from_lines`) -/

/-- First-match association lookup (dict access). -/
def assocFind (k : String × String) (acc : List ((String × String) × Fact)) :
    Option ((String × String) × Fact) :=
  acc.find? fun e => e.1 = k

/-- The last fact in `rs` carrying key `k`, if any (last-seen-wins). -/
def lastWithKey (rs : List Fact) (k : String × String) : Option Fact :=
  rs.reverse.find? fun r => factKey r = k

/-- Every stored pair's key is the key of its value. -/
def GoodAcc (acc : List ((String × String) × Fact)) : Prop :=
  ∀ e ∈ acc, e.1 = factKey e.2

theorem upsert_good {acc : List ((String × String) × Fact)} {v : Fact}
    (h : GoodAcc acc) : GoodAcc (upsert (factKey v) v acc) := by
  induction acc with
  | nil =>
    intro e he
    rcases List.mem_singleton.1 he with rfl
    rfl
  | cons a rest ih =>
    have ha : a.1 = factKey a.2 := h a (List.mem_cons_self _ _)
    have hrest : GoodAcc rest := fun e he => h e (List.mem_cons_of_mem _ he)
    obtain ⟨k', v'⟩ := a
    simp only [upsert]
    split
    · rename_i hk
      intro e he
      rcases List.mem_cons.1 he with rfl | he'
      · simpa using hk
      · exact hrest e he'
    · intro e he
      rcases List.mem_cons.1 he with rfl | he'
      · exact ha
      · exact ih hrest e he'

theorem upsert_keys {acc : List ((String × String) × Fact)} {k : String × String} {v : Fact} :
    (upsert k v acc).map Prod.fst =
      if k ∈ acc.map Prod.fst then acc.map Prod.fst else acc.map Prod.fst ++ [k] := by
  induction acc with
  | nil => simp [upsert]
  | cons a rest ih =>
    obtain ⟨k', v'⟩ := a
    simp only [upsert]
    split
    · rename_i hk
      subst hk
      simp
    · rename_i hk
      have hkk : ¬k = k' := fun he => hk he.symm
      simp only [List.map_cons, ih, List.mem_cons]
      by_cases hmem : k ∈ rest.map Prod.fst
      · simp [hmem, hkk]
      · simp [hmem, hkk]

theorem upsert_nodup {acc : List ((String × String) × Fact)} {k : String × String} {v : Fact}
    (h : (acc.map Prod.fst).Nodup) : ((upsert k v acc).map Prod.fst).Nodup := by
  rw [upsert_keys]
  split
  · exact h
  · rename_i hmem
    rw [List.nodup_append]
    refine ⟨h, List.nodup_singleton _, ?_⟩
    intro a ha hb
    rw [List.mem_singleton] at hb
    subst hb
    exact hmem ha

theorem upsert_find_self {acc : List ((String × String) × Fact)} {k : String × String}
    {v : Fact} : assocFind k (upsert k v acc) = some (k, v) := by
  induction acc with
  | nil => simp [upsert, assocFind, List.find?]
  | cons a rest ih =>
    obtain ⟨k', v'⟩ := a
    simp only [upsert]
    split
    · rename_i hk
      subst hk
      simp [assocFind, List.find?]
    · rename_i hk
      simp only [assocFind, List.find?] at ih ⊢
      have : (decide (k' = k)) = false := by
        simp [hk]
      rw [this]
      exact ih

theorem upsert_find_other {acc : List ((String × String) × Fact)} {k k2 : String × String}
    {v : Fact} (hne : k2 ≠ k) : assocFind k2 (upsert k v acc) = assocFind k2 acc := by
  induction acc with
  | nil =>
    simp only [upsert, assocFind, List.find?]
    have : (decide (k = k2)) = false := by
      simp
      exact fun he => hne he.symm
    rw [this]
  | cons a rest ih =>
    obtain ⟨k', v'⟩ := a
    simp only [upsert]
    split
    · rename_i hk
      subst hk
      simp only [assocFind, List.find?]
      have hd : (decide (k' = k2)) = false := by
        simp only [decide_eq_false_iff_not]
        exact fun he => hne he.symm
      rw [hd]
    · simp only [assocFind, List.find?] at ih ⊢
      cases hd : (decide (k' = k2)) with
      | true => rfl
      | false => exact ih

/-- The dict built by the dedup fold, looked up at any key: the value is the
last occurrence of that key in the processed list. -/
theorem foldl_upsert_find (rs : List Fact) :
    ∀ (acc : List ((String × String) × Fact)) (k : String × String),
      assocFind k (rs.foldl (fun a r => upsert (factKey r) r a) acc) =
        match lastWithKey rs k with
        | some r => some (k, r)
        | none => assocFind k acc := by
  induction rs with
  | nil =>
    intro acc k
    simp [lastWithKey]
  | cons r rest ih =>
    intro acc k
    simp only [List.foldl_cons]
    rw [ih]
    have hlast : lastWithKey (r :: rest) k =
        match lastWithKey rest k with
        | some r' => some r'
        | none => if factKey r = k then some r else none := by
      simp only [lastWithKey, List.reverse_cons, List.find?_append]
      cases rest.reverse.find? fun x => factKey x = k with
      | some r' => simp [Option.or]
      | none =>
        simp only [Option.or]
        cases hd : (decide (factKey r = k)) with
        | true =>
          simp only [List.find?]
          rw [hd]
          simp at hd
          simp [hd]
        | false =>
          simp only [List.find?]
          rw [hd]
          simp only [decide_eq_false_iff_not] at hd
          simp [hd]
    rw [hlast]
    cases lastWithKey rest k with
    | some r' => rfl
    | none =>
      by_cases hk : factKey r = k
      · subst hk
        simp only [if_pos rfl]
        exact upsert_find_self
      · simp only [if_neg hk]
        exact upsert_find_other fun he => hk he.symm

theorem foldl_upsert_good (rs : List Fact) :
    ∀ acc, GoodAcc acc → GoodAcc (rs.foldl (fun a r => upsert (factKey r) r a) acc) := by
  induction rs with
  | nil => exact fun acc h => h
  | cons r rest ih =>
    intro acc h
    simp only [List.foldl_cons]
    exact ih _ (upsert_good h)

theorem foldl_upsert_nodup (rs : List Fact) :
    ∀ acc, (acc.map Prod.fst).Nodup →
      ((rs.foldl (fun a r => upsert (factKey r) r a) acc).map Prod.fst).Nodup := by
  induction rs with
  | nil => exact fun acc h => h
  | cons r rest ih =>
    intro acc h
    simp only [List.foldl_cons]
    exact ih _ (upsert_nodup h)

theorem mem_assocFind {acc : List ((String × String) × Fact)}
    (hnd : (acc.map Prod.fst).Nodup) {e : (String × String) × Fact} (he : e ∈ acc) :
    assocFind e.1 acc = some e := by
  induction acc with
  | nil => cases he
  | cons a rest ih =>
    rcases List.mem_cons.1 he with rfl | he'
    · simp [assocFind, List.find?]
    · have hane : ¬a.1 = e.1 := by
        simp only [List.map_cons, List.nodup_cons] at hnd
        intro hcontra
        exact hnd.1 (hcontra ▸ List.mem_map_of_mem Prod.fst he')
      have hrest : (rest.map Prod.fst).Nodup := by
        simp only [List.map_cons, List.nodup_cons] at hnd
        exact hnd.2
      simp only [assocFind, List.find?]
      have : (decide (a.1 = e.1)) = false := by simp [hane]
      rw [this]
      exact ih hrest he'

/-- The deduplicated output has pairwise distinct `(pair, utc)` keys. -/
theorem dedupByKey_nodup (rs : List Fact) : ((dedupByKey rs).map factKey).Nodup := by
  unfold dedupByKey
  have hgood : GoodAcc (rs.foldl (fun a r => upsert (factKey r) r a) []) :=
    foldl_upsert_good rs [] (fun e he => nomatch he)
  have hnd : (((rs.foldl (fun a r => upsert (factKey r) r a) [])).map Prod.fst).Nodup :=
    foldl_upsert_nodup rs [] (by simp)
  have hmapeq : ((rs.foldl (fun a r => upsert (factKey r) r a) []).map Prod.snd).map factKey =
      (rs.foldl (fun a r => upsert (factKey r) r a) []).map Prod.fst := by
    rw [List.map_map]
    exact List.map_congr_left fun e he => (hgood e he).symm
  rw [hmapeq]
  exact hnd

/-- Each output fact is the last occurrence of its key in the emitted list. -/
theorem dedupByKey_last {rs : List Fact} {r : Fact} (h : r ∈ dedupByKey rs) :
    lastWithKey rs (factKey r) = some r := by
  unfold dedupByKey at h
  obtain ⟨e, he, hsnd⟩ := List.mem_map.1 h
  have hgood : GoodAcc (rs.foldl (fun a r => upsert (factKey r) r a) []) :=
    foldl_upsert_good rs [] (fun e he => nomatch he)
  have hnd : (((rs.foldl (fun a r => upsert (factKey r) r a) [])).map Prod.fst).Nodup :=
    foldl_upsert_nodup rs [] (by simp)
  have hfind := mem_assocFind hnd he
  have hkey : e.1 = factKey r := by
    rw [hgood e he, hsnd]
  rw [hkey] at hfind
  rw [foldl_upsert_find rs [] (factKey r)] at hfind
  cases hlast : lastWithKey rs (factKey r) with
  | none =>
    rw [hlast] at hfind
    simp [assocFind, List.find?] at hfind
  | some r' =>
    rw [hlast] at hfind
    simp only [Option.some.injEq] at hfind
    have : e.2 = r' := by
      rw [← hfind]
    rw [← hsnd, this]

/-- Every emitted key survives into the deduplicated output. -/
theorem dedupByKey_covers {rs : List Fact} {r : Fact} (h : r ∈ rs) :
    ∃ r2, r2 ∈ dedupByKey rs ∧ factKey r2 = factKey r := by
  have hsome : (rs.reverse.find? fun x => factKey x = factKey r).isSome := by
    rw [List.find?_isSome]
    exact ⟨r, List.mem_reverse.2 h, by simp⟩
  obtain ⟨r2, hr2⟩ := Option.isSome_iff_exists.1 hsome
  have hkey : factKey r2 = factKey r := by
    have := List.find?_some hr2
    simpa using this
  have hfind := foldl_upsert_find rs [] (factKey r)
  rw [show lastWithKey rs (factKey r) = some r2 from hr2] at hfind
  refine ⟨r2, ?_, hkey⟩
  unfold dedupByKey
  have hmem := List.mem_of_find?_eq_some hfind
  exact List.mem_map.2 ⟨(factKey r, r2), hmem, rfl⟩

/-! ## Error-freedom lemmas for the extractor -/

theorem collectFrom_no_markers {lines : List String} {maxFollow : Nat} {js : List Nat}
    (h : ∀ i ∈ js, timeLineMatch (lines.getD i "") = none) :
    collectFrom lines maxFollow js = .ok [] := by
  induction js with
  | nil => rfl
  | cons i is ih =>
    have hi := h i (List.mem_cons_self _ _)
    have hrest : ∀ k ∈ is, timeLineMatch (lines.getD k "") = none :=
      fun k hk => h k (List.mem_cons_of_mem _ hk)
    unfold collectFrom
    simp only [hi]
    exact ih hrest

theorem collectFrom_ok_of_valid {lines : List String} {maxFollow : Nat} :
    ∀ js : List Nat,
      (∀ i ∈ js, ∀ d t, timeLineMatch (lines.getD i "") = some (d, t) →
        ∃ tw, utc_to_taipei d t = .ok tw) →
      ∃ rs, collectFrom lines maxFollow js = .ok rs := by
  intro js
  induction js with
  | nil => exact fun _ => ⟨[], rfl⟩
  | cons i is ih =>
    intro h
    have hrest : ∀ k ∈ is, ∀ d t, timeLineMatch (lines.getD k "") = some (d, t) →
        ∃ tw, utc_to_taipei d t = .ok tw :=
      fun k hk => h k (List.mem_cons_of_mem _ hk)
    obtain ⟨rest, hrestOk⟩ := ih hrest
    cases hm : timeLineMatch (lines.getD i "") with
    | none =>
      refine ⟨rest, ?_⟩
      unfold collectFrom
      simp only [hm]
      exact hrestOk
    | some p =>
      obtain ⟨d, t⟩ := p
      obtain ⟨tw, htw⟩ := h i (List.mem_cons_self _ _) d t hm
      refine ⟨(scanWindow lines (windowIdxs lines maxFollow i)).map
        (fun q => Fact.mk q (mkUtcStr d t) tw) ++ rest, ?_⟩
      unfold collectFrom
      simp only [hm, htw, hrestOk]

theorem timeLineMatch_empty : timeLineMatch "" = none := rfl

theorem getD_mem_of_lt {lines : List String} {i : Nat} (h : i < lines.length) :
    lines.getD i "" ∈ lines := by
  rw [List.getD_eq_getElem?_getD, List.getElem?_eq_getElem h]
  exact List.getElem_mem _

/-! ## Calendar validity lemmas for the time normalizer -/

theorem daysInMonth_pos (y m : Nat) : 1 ≤ daysInMonth y m := by
  unfold daysInMonth
  split
  · split <;> omega
  · split <;> omega

theorem nextDay_valid {y m d : Nat} (h : ValidDate y m d) :
    ValidDate (nextDay y m d).1 (nextDay y m d).2.1 (nextDay y m d).2.2 := by
  obtain ⟨hy, hm1, hm2, hd1, hd2⟩ := h
  unfold nextDay
  by_cases h1 : d < daysInMonth y m
  · simp only [h1, if_true]
    exact ⟨hy, hm1, hm2, by omega, by omega⟩
  · by_cases h2 : m < 12
    · simp only [h1, if_false, h2, if_true]
      exact ⟨hy, by omega, by omega, by omega, daysInMonth_pos y (m + 1)⟩
    · simp only [h1, if_false, h2]
      exact ⟨by omega, by omega, by omega, by omega, daysInMonth_pos (y + 1) 1⟩

theorem parseDate_valid {s : String} {y m d : Nat} (h : parseDate s = some (y, m, d)) :
    ValidDate y m d := by
  unfold parseDate at h
  split at h
  · split at h
    · split at h
      · rename_i hrange
        simp only [Bool.and_eq_true, decide_eq_true_eq] at hrange
        simp only [Option.some.injEq, Prod.mk.injEq] at h
        obtain ⟨hy, hm, hd⟩ := h
        subst hy
        subst hm
        subst hd
        exact ⟨hrange.1.1.1.1, hrange.1.1.1.2, hrange.1.1.2, hrange.1.2, hrange.2⟩
      · simp at h
    · simp at h
  · simp at h

theorem parseTime_bounds {s : String} {hh mm : Nat} (h : parseTime s = some (hh, mm)) :
    hh ≤ 23 ∧ mm ≤ 59 := by
  unfold parseTime at h
  split at h
  · split at h
    · split at h
      · rename_i hrange
        simp only [Bool.and_eq_true, decide_eq_true_eq] at hrange
        simp only [Option.some.injEq, Prod.mk.injEq] at h
        obtain ⟨hh1, hm1⟩ := h
        subst hh1
        subst hm1
        exact hrange
      · simp at h
    · simp at h
  · simp at h

theorem shiftTaipei_spec {y m d hh mm y2 m2 d2 hh2 mm2 : Nat} (hv : ValidDate y m d)
    (hhh : hh ≤ 23) (hmm : mm ≤ 59)
    (he : shiftTaipei y m d hh mm = (y2, m2, d2, hh2, mm2)) :
    ValidDate y2 m2 d2 ∧ hh2 ≤ 23 ∧ mm2 ≤ 59 ∧
      absMinutes y2 m2 d2 hh2 mm2 = absMinutes y m d hh mm + 480 := by
  unfold shiftTaipei at he
  by_cases hc : hh * 60 + mm + 480 < 1440
  · rw [if_pos hc] at he
    simp only [Prod.mk.injEq] at he
    obtain ⟨hy, hm2e, hd2e, hhh2, hmm2⟩ := he
    subst hy
    subst hm2e
    subst hd2e
    subst hhh2
    subst hmm2
    refine ⟨hv, by omega, by omega, ?_⟩
    unfold absMinutes
    omega
  · rw [if_neg hc] at he
    simp only [Prod.mk.injEq] at he
    obtain ⟨hy, hm2e, hd2e, hhh2, hmm2⟩ := he
    subst hy
    subst hm2e
    subst hd2e
    subst hhh2
    subst hmm2
    have hnv := nextDay_valid hv
    have hcd := civilDays_nextDay hv
    refine ⟨hnv, by omega, by omega, ?_⟩
    unfold absMinutes
    rw [hcd]
    omega

theorem utc_to_taipei_eq_ok {ds ts : String} {y m d hh mm : Nat}
    (hd : parseDate ds = some (y, m, d)) (ht : parseTime ts = some (hh, mm)) :
    utc_to_taipei ds ts =
      .ok (renderDateTime (shiftTaipei y m d hh mm).1 (shiftTaipei y m d hh mm).2.1
        (shiftTaipei y m d hh mm).2.2.1 (shiftTaipei y m d hh mm).2.2.2.1
        (shiftTaipei y m d hh mm).2.2.2.2 ++ " (Asia/Taipei)") := by
  unfold utc_to_taipei
  simp only [hd, ht]

/-! ## Novelty filter lemmas -/

theorem noveltyFilter_mem (rows : List Fact) (code : String) (seen : List String) :
    ∀ r, r ∈ (noveltyFilter rows code seen).1 ↔
      (r ∈ rows ∧ make_key code r.pair r.utc ∉ seen) := by
  induction rows with
  | nil =>
    intro r
    simp [noveltyFilter]
  | cons r0 rest ih =>
    intro r
    simp only [noveltyFilter]
    split
    · rename_i hin
      rw [ih r]
      constructor
      · rintro ⟨hmem, hnot⟩
        exact ⟨List.mem_cons_of_mem _ hmem, hnot⟩
      · rintro ⟨hmem, hnot⟩
        rcases List.mem_cons.1 hmem with rfl | hmem'
        · exact absurd hin hnot
        · exact ⟨hmem', hnot⟩
    · rename_i hnin
      simp only [List.mem_cons]
      rw [ih r]
      constructor
      · rintro (rfl | ⟨hmem, hnot⟩)
        · exact ⟨Or.inl rfl, hnin⟩
        · exact ⟨Or.inr hmem, hnot⟩
      · rintro ⟨rfl | hmem, hnot⟩
        · exact Or.inl rfl
        · exact Or.inr ⟨hmem, hnot⟩

theorem noveltyFilter_keys (rows : List Fact) (code : String) (seen : List String) :
    (noveltyFilter rows code seen).2 =
      (noveltyFilter rows code seen).1.map fun r => make_key code r.pair r.utc := by
  induction rows with
  | nil => rfl
  | cons r0 rest ih =>
    simp only [noveltyFilter]
    split
    · exact ih
    · simp only [List.map_cons]
      rw [ih]

theorem noveltyFilter_rerun (rows : List Fact) (code : String) (seen : List String) :
    (noveltyFilter rows code (seen ++ (noveltyFilter rows code seen).2)).1 = [] := by
  rw [List.eq_nil_iff_forall_not_mem]
  intro r hr
  rw [noveltyFilter_mem] at hr
  obtain ⟨hmem, hnot⟩ := hr
  by_cases hseen : make_key code r.pair r.utc ∈ seen
  · exact hnot (List.mem_append.2 (Or.inl hseen))
  · have : r ∈ (noveltyFilter rows code seen).1 := (noveltyFilter_mem rows code seen r).2 ⟨hmem, hseen⟩
    have hkey : make_key code r.pair r.utc ∈ (noveltyFilter rows code seen).2 := by
      rw [noveltyFilter_keys]
      exact List.mem_map_of_mem _ this
    exact hnot (List.mem_append.2 (Or.inr hkey))

/-! ## Uppercase normalization of the pair scan

`PAIR_RE` is case-sensitive (it is compiled with no flags), so every
character a match can contain is an uppercase letter or a digit; the
`.upper()` applied to each found token is therefore the identity.  The
lemmas below prove this, after a few character-level facts about
`Char.toUpper`. -/

theorem toNat_ofNat_valid {n : Nat} (h : n < 55296) : (Char.ofNat n).toNat = n := by
  unfold Char.ofNat
  rw [dif_pos (Or.inl h)]
  rfl

theorem char_eq_of_toNat_eq {c d : Char} (h : c.toNat = d.toNat) : c = d := by
  rw [← Char.ofNat_toNat c, h, Char.ofNat_toNat]

theorem toUpper_toNat (c : Char) :
    (c.toUpper).toNat = if 97 ≤ c.toNat ∧ c.toNat ≤ 122 then c.toNat - 32 else c.toNat := by
  simp only [Char.toUpper]
  split
  · rename_i h
    first
    | rfl
    | rw [toNat_ofNat_valid (by omega)]
  · rfl

theorem toUpper_idem (c : Char) : c.toUpper.toUpper = c.toUpper := by
  apply char_eq_of_toNat_eq
  rw [toUpper_toNat, toUpper_toNat]
  by_cases h : 97 ≤ c.toNat ∧ c.toNat ≤ 122
  · rw [if_pos h, if_neg (by omega)]
  · rw [if_neg h, if_neg h]

theorem toUpper_id_of_isAlnumU {c : Char} (h : isAlnumU c = true) : c.toUpper = c := by
  simp only [isAlnumU, isDigitC, Bool.or_eq_true, Bool.and_eq_true, decide_eq_true_eq] at h
  apply char_eq_of_toNat_eq
  rw [toUpper_toNat, if_neg (by omega)]

theorem tryLenPair_group {cs g rest : List Char} {k : Nat}
    (h : tryLenPair cs k = some (g, rest)) : g.all isAlnumU = true := by
  unfold tryLenPair at h
  split at h
  · rename_i hpre
    simp only [Bool.and_eq_true, decide_eq_true_eq] at hpre
    split at h
    · rename_i us rest' hus
      have huseq : us = ['U', 'S', 'D', 'T'] := matchUSDT_group hus
      subst huseq
      match rest' with
      | [] =>
        simp only [Option.some.injEq, Prod.mk.injEq] at h
        obtain ⟨h1, h2⟩ := h
        subst h1
        rw [List.all_append, hpre.2]
        decide
      | c :: r2 =>
        simp only [] at h
        split at h
        · simp at h
        · simp only [Option.some.injEq, Prod.mk.injEq] at h
          obtain ⟨h1, h2⟩ := h
          subst h1
          rw [List.all_append, hpre.2]
          decide
    · simp at h
  · simp at h

theorem tryPairFrom_group {cs g rest : List Char} :
    ∀ {n : Nat}, tryPairFrom cs n = some (g, rest) → g.all isAlnumU = true := by
  intro n
  induction n using Nat.strong_induction_on with
  | _ n ih =>
    intro h
    rcases n with _ | n1
    · simp [tryPairFrom] at h
    rcases n1 with _ | m
    · simp [tryPairFrom] at h
    unfold tryPairFrom at h
    split at h
    · rename_i r hr
      injection h with h'
      subst h'
      exact tryLenPair_group hr
    · exact ih (m + 1) (by omega) h

theorem findallGo_group :
    ∀ (fuel : Nat) (b : Bool) (cs : List Char) (g : List Char),
      g ∈ findallGo fuel b cs → g.all isAlnumU = true := by
  intro fuel
  induction fuel with
  | zero =>
    intro b cs g hg
    cases hg
  | succ f ih =>
    intro b cs g hg
    cases cs with
    | nil => cases hg
    | cons c rest =>
      unfold findallGo at hg
      by_cases hb : b = true
      · rw [if_pos hb] at hg
        exact ih _ rest g hg
      · rw [if_neg hb] at hg
        cases hm : tryPairFrom (c :: rest) 15 with
        | none =>
          simp only [hm] at hg
          exact ih _ rest g hg
        | some p =>
          obtain ⟨grp, rest2⟩ := p
          simp only [hm] at hg
          rcases List.mem_cons.1 hg with rfl | hg'
          · exact tryPairFrom_group hm
          · exact ih _ rest2 g hg'

/-- `.upper()` is the identity on every token `PAIR_RE` can find: matched
tokens consist of uppercase letters and digits only. -/
theorem linePairs_eq_pairFindall (s : String) : linePairs s = pairFindall s := by
  unfold linePairs pairFindall findallPairsL
  rw [List.map_map]
  apply List.map_congr_left
  intro g hg
  have hall := findallGo_group s.data.length false s.data g hg
  show toUpperStr (String.mk g) = String.mk g
  unfold toUpperStr
  congr 1
  show List.map Char.toUpper g = g
  have hmap : g.map Char.toUpper = g.map id := by
    apply List.map_congr_left
    intro c hc
    exact toUpper_id_of_isAlnumU (List.all_eq_true.mp hall c hc)
  rw [hmap, List.map_id]

/-- Every token the extractor emits is already uppercase-normalized. -/
theorem linePairs_upper {s : String} {p : String} (h : p ∈ linePairs s) :
    toUpperStr p = p := by
  unfold linePairs at h
  obtain ⟨q, _, rfl⟩ := List.mem_map.1 h
  unfold toUpperStr
  congr 1
  simp only [List.map_map]
  apply List.map_congr_left
  intro c _
  exact toUpper_idem c

/-! ## Flattener traversal equations -/

theorem walkElems_eq (l : List JsonVal) : walkElems l = l.flatMap walk_text := by
  induction l with
  | nil => rfl
  | cons v rest ih =>
    rw [List.flatMap_cons, ← ih]
    rfl

theorem walkFields_eq (l : List (String × JsonVal)) :
    walkFields l = l.flatMap fun f => walk_text f.2 := by
  induction l with
  | nil => rfl
  | cons f rest ih =>
    obtain ⟨k, v⟩ := f
    rw [List.flatMap_cons, ← ih]
    rfl

/-!
# The claims

Each claim of the specification is settled by one theorem below (with a
counterexample theorem where the claim as stated fails on the code).
-/

/-- C1: for every line sequence and marker at position `i`, the extractor's
pre-dedup emission is exactly the concatenation of per-marker contributions;
a marker's contribution is one fact per token of the *first* pair-bearing
line inside the window `i+1 … min(len, i+1+lookahead) - 1` (bounds included
in `firstPairIdx`'s specification below, so the scan never reads past the
end of the sequence), bound to that marker's `utc`/`taipei`; lines of the
window before the first hit bear no token, no later window line contributes,
and no line at or beyond `min(len, i+1+lookahead)` is ever associated. -/
theorem claim_C1 (lines : List String) (la : Nat) (rs : List Fact)
    (h : rawResults lines la = .ok rs) :
    rs = (List.range lines.length).flatMap (markerContribution lines la) ∧
    (∀ i d t, i < lines.length → timeLineMatch (lines.getD i "") = some (d, t) →
      ∃ tw, utc_to_taipei d t = .ok tw ∧
        markerContribution lines la i = markerFacts lines la i d t tw) ∧
    (∀ i j, firstPairIdx lines la i = some j →
      i + 1 ≤ j ∧ j < min lines.length (i + 1 + la) ∧
        linePairs (lines.getD j "") ≠ [] ∧
        (∀ d t tw, markerFacts lines la i d t tw =
          (linePairs (lines.getD j "")).map fun p => Fact.mk p (mkUtcStr d t) tw) ∧
        (∀ k, i + 1 ≤ k → k < j → linePairs (lines.getD k "") = [])) ∧
    (∀ i, firstPairIdx lines la i = none → ∀ d t tw, markerFacts lines la i d t tw = []) := by
  refine ⟨collectFrom_ok_eq lines la _ rs h, ?_, ?_, ?_⟩
  · intro i d t hi hm
    obtain ⟨tw, htw⟩ := collectFrom_ok_utc lines la _ rs h i (List.mem_range.2 hi) d t hm
    refine ⟨tw, htw, ?_⟩
    simp only [markerContribution, hm, htw]
  · intro i j hj
    obtain ⟨h1, h2, h3, h4⟩ := firstPairIdx_some_spec hj
    refine ⟨h1, h2, h3, ?_, h4⟩
    intro d t tw
    simp only [markerFacts, hj]
  · intro i hnone d t tw
    simp only [markerFacts, hnone]

theorem claim_C1_witness :
    [Fact.mk "BTCUSDT" "2024-03-01 08:00 UTC" "2024-03-01 16:00 (Asia/Taipei)",
     Fact.mk "ETHUSDT" "2024-03-01 08:00 UTC" "2024-03-01 16:00 (Asia/Taipei)"] =
      (List.range (["2024-03-01 08:00 (UTC)", "intro text", "BTCUSDT and ETHUSDT launch",
        "ADAUSDT unrelated footer"] : List String).length).flatMap
        (markerContribution ["2024-03-01 08:00 (UTC)", "intro text",
          "BTCUSDT and ETHUSDT launch", "ADAUSDT unrelated footer"] 10) :=
  (claim_C1 ["2024-03-01 08:00 (UTC)", "intro text", "BTCUSDT and ETHUSDT launch",
    "ADAUSDT unrelated footer"] 10
    [Fact.mk "BTCUSDT" "2024-03-01 08:00 UTC" "2024-03-01 16:00 (Asia/Taipei)",
     Fact.mk "ETHUSDT" "2024-03-01 08:00 UTC" "2024-03-01 16:00 (Asia/Taipei)"]
    (by decide)).1

/-- C2 counterexample: the line `"1999-03-01 08:00 (UTC)"` consists, exactly
as the claim words it, of a date in `YYYY-MM-DD` form, whitespace, a time in
`HH:MM` form, the parenthesized `(UTC)` and nothing else, yet
`TIME_LINE_RE` rejects it (the regex requires the year to begin `20`), so
the claimed equivalence fails at this line. -/
theorem claim_C2_counterexample :
    ¬((timeLineMatch "1999-03-01 08:00 (UTC)").isSome = true ↔
      SpecTimeMarkerStated ("1999-03-01 08:00 (UTC)").data) := by
  intro hiff
  have hspec : SpecTimeMarkerStated ("1999-03-01 08:00 (UTC)").data := by
    refine ⟨['1', '9', '9', '9', '-', '0', '3', '-', '0', '1'], [' '],
      ['0', '8', ':', '0', '0'], [' '], ['(', 'U', 'T', 'C', ')'], [], [],
      by decide, ?_, by decide, by decide, ?_, by decide, ?_, Or.inl rfl, by decide⟩
    · exact ⟨'1', '9', '9', '9', '0', '3', '0', '1', rfl, by decide, by decide, by decide,
        by decide, by decide, by decide, by decide, by decide⟩
    · exact ⟨'0', '8', '0', '0', rfl, by decide, by decide, by decide, by decide⟩
    · exact ⟨'U', 'T', 'C', rfl, Or.inl rfl, Or.inl rfl, Or.inl rfl⟩
  have hsome := hiff.mpr hspec
  have hnone : (timeLineMatch "1999-03-01 08:00 (UTC)").isSome = false := by decide
  rw [hnone] at hsome
  exact Bool.false_ne_true hsome

/-- C2 (amended): a line is recognized as a TimeMarker if and only if it
consists of exactly a date in `20YY-MM-DD` form (the year must begin `20`),
whitespace, a time in `HH:MM` form, optional whitespace, a case-insensitive
parenthesized `(UTC)` marker, optional whitespace, an optional trailing
colon, and optional trailing whitespace, with nothing else. -/
theorem claim_C2 (s : String) :
    (timeLineMatch s).isSome = true ↔ SpecTimeMarkerAmended s.data := by
  unfold timeLineMatch
  rw [Option.isSome_map']
  constructor
  · intro h
    obtain ⟨x, hx⟩ := Option.isSome_iff_exists.1 h
    exact timeLineMatchL_sound hx
  · intro h
    obtain ⟨p, hp⟩ := timeLineMatchL_complete h
    rw [hp]
    rfl

/-- C3 counterexample: `PAIR_RE` is compiled without `re.IGNORECASE`, so
the claim's own example `"btcusdt"` matches nothing at all — pair-token
matching is not case-insensitive. -/
theorem claim_C3_counterexample :
    linePairs "btcusdt" = [] ∧ pairFindall "btcusdt" = [] :=
  ⟨by decide, by decide⟩

/-- C3 (amended): pair-token matching is case-sensitive — only uppercase
`[A-Z0-9]{2,15}USDT` tokens match, so `"btcusdt"` yields nothing while
`"BTCUSDT"` matches; the `.upper()` normalization is applied to each found
token but is the identity on it (every matched token is already uppercase);
word-boundary matching rejects a token embedded in a longer alphanumeric
run. -/
theorem claim_C3 :
    (∀ s : String, linePairs s = pairFindall s) ∧
    (∀ s p, p ∈ linePairs s → toUpperStr p = p) ∧
    linePairs "BTCUSDT" = ["BTCUSDT"] ∧
    linePairs "btcusdt" = [] ∧
    linePairs "XXBTCUSDTYY" = [] :=
  ⟨linePairs_eq_pairFindall, fun _ _ h => linePairs_upper h, by decide, by decide, by decide⟩

theorem claim_C3_witness :
    "BTCUSDT" ∈ linePairs "BTCUSDT" ∧ toUpperStr "BTCUSDT" = "BTCUSDT" :=
  ⟨by decide, claim_C3.2.1 "BTCUSDT" "BTCUSDT" (by decide)⟩

/-- C4 counterexample: the line `"2024-13-01 08:00 (UTC)"` is accepted by
`TIME_LINE_RE` (which checks digit shape, not calendar validity), yet month
13 makes `strptime` raise, so extraction signals `MalformedTimestamp`
instead of returning a fact set — the claim's "extraction never signals an
error" and "regex acceptance implies a valid calendar parse" are false. -/
theorem claim_C4_counterexample :
    parse_pair_times_from_lines ["2024-13-01 08:00 (UTC)", "BTCUSDT"] 10 =
      .error "MalformedTimestamp" ∧
    (timeLineMatch "2024-13-01 08:00 (UTC)").isSome = true := by
  exact ⟨by decide, by decide⟩

/-- C4 (amended): a sequence with zero marker matches yields the empty fact
set rather than a failure, and extraction is error-free exactly on inputs
whose regex-accepted markers all carry valid calendar values; the
`MalformedTimestamp` branch is reachable from extraction (see the
counterexample). -/
theorem claim_C4 (lines : List String) (la : Nat) :
    ((∀ ln ∈ lines, timeLineMatch ln = none) →
      parse_pair_times_from_lines lines la = .ok []) ∧
    ((∀ ln ∈ lines, ∀ d t, timeLineMatch ln = some (d, t) →
        ∃ tw, utc_to_taipei d t = .ok tw) →
      ∃ rs, parse_pair_times_from_lines lines la = .ok rs) := by
  constructor
  · intro h
    have hok : rawResults lines la = .ok [] := by
      apply collectFrom_no_markers
      intro i hi
      by_cases hlt : i < lines.length
      · exact h _ (getD_mem_of_lt hlt)
      · rw [List.getD_eq_getElem?_getD, List.getElem?_eq_none (by omega)]
        exact timeLineMatch_empty
    unfold parse_pair_times_from_lines
    rw [hok]
    rfl
  · intro h
    have hvalid : ∀ i ∈ List.range lines.length, ∀ d t,
        timeLineMatch (lines.getD i "") = some (d, t) → ∃ tw, utc_to_taipei d t = .ok tw := by
      intro i hi d t hm
      exact h _ (getD_mem_of_lt (List.mem_range.1 hi)) d t hm
    obtain ⟨rs, hrs⟩ := collectFrom_ok_of_valid (List.range lines.length) hvalid
    refine ⟨dedupByKey rs, ?_⟩
    unfold parse_pair_times_from_lines
    rw [show rawResults lines la = .ok rs from hrs]

theorem claim_C4_witness :
    (∀ ln ∈ (["no markers in this text"] : List String), timeLineMatch ln = none) ∧
    parse_pair_times_from_lines ["no markers in this text"] 10 = .ok [] :=
  ⟨by decide, (claim_C4 ["no markers in this text"] 10).1 (by decide)⟩

/-- C6: one extraction run returns the dedup (by `(pair, utc)`) of the
emitted fact list: the output's keys are pairwise distinct, each output fact
is the last emitted occurrence of its key (no merge logic), and every
emitted key is represented; two markers producing identical `(pair, utc)`
therefore collapse to one fact. -/
theorem claim_C6 (lines : List String) (la : Nat) (rs raw : List Fact)
    (h : parse_pair_times_from_lines lines la = .ok rs)
    (hraw : rawResults lines la = .ok raw) :
    rs = dedupByKey raw ∧
    (rs.map factKey).Nodup ∧
    (∀ r ∈ rs, lastWithKey raw (factKey r) = some r) ∧
    (∀ r ∈ raw, ∃ r2 ∈ rs, factKey r2 = factKey r) := by
  have hrs : rs = dedupByKey raw := by
    unfold parse_pair_times_from_lines at h
    rw [hraw] at h
    simp only [Except.ok.injEq] at h
    exact h.symm
  subst hrs
  refine ⟨rfl, dedupByKey_nodup raw, ?_, ?_⟩
  · intro r hr
    exact dedupByKey_last hr
  · intro r hr
    exact dedupByKey_covers hr

theorem claim_C6_witness :
    lastWithKey
      [Fact.mk "BTCUSDT" "2024-03-01 08:00 UTC" "2024-03-01 16:00 (Asia/Taipei)",
       Fact.mk "BTCUSDT" "2024-03-01 08:00 UTC" "2024-03-01 16:00 (Asia/Taipei)"]
      (factKey (Fact.mk "BTCUSDT" "2024-03-01 08:00 UTC" "2024-03-01 16:00 (Asia/Taipei)")) =
      some (Fact.mk "BTCUSDT" "2024-03-01 08:00 UTC" "2024-03-01 16:00 (Asia/Taipei)") ∧
    ([Fact.mk "BTCUSDT" "2024-03-01 08:00 UTC" "2024-03-01 16:00 (Asia/Taipei)"].map
      factKey).Nodup := by
  have h := claim_C6
    ["2024-03-01 08:00 (UTC)", "BTCUSDT", "2024-03-01 08:00 (UTC)", "BTCUSDT"] 10
    [Fact.mk "BTCUSDT" "2024-03-01 08:00 UTC" "2024-03-01 16:00 (Asia/Taipei)"]
    [Fact.mk "BTCUSDT" "2024-03-01 08:00 UTC" "2024-03-01 16:00 (Asia/Taipei)",
     Fact.mk "BTCUSDT" "2024-03-01 08:00 UTC" "2024-03-01 16:00 (Asia/Taipei)"]
    (by decide) (by decide)
  exact ⟨h.2.2.1 _ (List.mem_singleton.2 rfl), h.2.1⟩

/-- C7: the flattener's traversal satisfies exactly the claimed equations —
an object appends its string-valued `"content"` field before recursing into
its values in insertion order, a sequence recurses into its elements in
order, scalars contribute nothing — and the collected parts are
whitespace-collapsed, trimmed, and dropped when empty; in particular
`{"content":"A","children":[{"content":"B"},{"content":"C"}]}` flattens to
`["A","B","C"]`. -/
theorem claim_C7 :
    (∀ fields, walk_text (.obj fields) =
      contentPart fields ++ fields.flatMap fun f => walk_text f.2) ∧
    (∀ elems, walk_text (.arr elems) = elems.flatMap walk_text) ∧
    (∀ s, walk_text (.str s) = []) ∧
    (∀ n, walk_text (.num n) = []) ∧
    (∀ b, walk_text (.boolean b) = []) ∧
    walk_text .null = [] ∧
    (∀ j, extract_lines_from_content_json j =
      (walk_text j).filterMap fun p =>
        if normalizeLine p = "" then none else some (normalizeLine p)) ∧
    (∀ j l, l ∈ extract_lines_from_content_json j → l ≠ "") ∧
    extract_lines_from_content_json
      (.obj [("content", .str "A"),
             ("children", .arr [.obj [("content", .str "B")],
                                .obj [("content", .str "C")]])]) = ["A", "B", "C"] := by
  refine ⟨?_, ?_, fun _ => rfl, fun _ => rfl, fun _ => rfl, rfl, fun _ => rfl, ?_, by decide⟩
  · intro fields
    rw [← walkFields_eq]
    rfl
  · intro elems
    rw [← walkElems_eq]
    rfl
  · intro j l hl
    unfold extract_lines_from_content_json at hl
    obtain ⟨p, _, hp⟩ := List.mem_filterMap.1 hl
    by_cases he : normalizeLine p = ""
    · rw [if_pos he] at hp
      cases hp
    · rw [if_neg he] at hp
      simp only [Option.some.injEq] at hp
      rw [← hp]
      exact he

theorem claim_C7_witness :
    "A" ∈ extract_lines_from_content_json
      (.obj [("content", .str "A"),
             ("children", .arr [.obj [("content", .str "B")],
                                .obj [("content", .str "C")]])]) ∧
    ("A" : String) ≠ "" := by
  refine ⟨by decide, ?_⟩
  exact claim_C7.2.2.2.2.2.2.2.1
    (.obj [("content", .str "A"),
           ("children", .arr [.obj [("content", .str "B")],
                              .obj [("content", .str "C")]])]) "A" (by decide)

/-- C8: the novelty filter keeps a fact exactly when
`sourceId + "|" + pair + "|" + utc` is absent from `seen`, the returned keys
are the keys of the kept facts, the rendered list is sorted by
`(utc, pair)` ascending (Python tuple order on strings), and re-running the
filter after merging the returned keys into `seen` returns nothing. -/
theorem claim_C8 (rows : List Fact) (code : String) (seen : List String) :
    (∀ r, r ∈ (noveltyFilter rows code seen).1 ↔
      (r ∈ rows ∧ make_key code r.pair r.utc ∉ seen)) ∧
    ((noveltyFilter rows code seen).2 =
      (noveltyFilter rows code seen).1.map fun r => make_key code r.pair r.utc) ∧
    List.Sorted factLe (sortRows (noveltyFilter rows code seen).1) ∧
    (sortRows (noveltyFilter rows code seen).1).Perm (noveltyFilter rows code seen).1 ∧
    (noveltyFilter rows code (seen ++ (noveltyFilter rows code seen).2)).1 = [] :=
  ⟨noveltyFilter_mem rows code seen, noveltyFilter_keys rows code seen,
    List.sorted_insertionSort factLe _, List.perm_insertionSort factLe _,
    noveltyFilter_rerun rows code seen⟩

/-- C9: the state file is touched if and only if at least one article had a
new fact and the notifier call succeeded, and then only by the
write-temp-then-rename pair of `save_state`; a notifier failure raises
before any key is added to `seen` and before any file operation; a run with
no new facts performs no write and logs "no updates". -/
theorem claim_C9 (statePath : String) (arts : List ArticleData) (seen : List String)
    (notifyOk : Bool) :
    ((mainFinish statePath seen (processArticles arts seen).1 (processArticles arts seen).2
        notifyOk).ops ≠ [] ↔
      ((processArticles arts seen).2 ≠ [] ∧ notifyOk = true)) ∧
    ((processArticles arts seen).2 ≠ [] ↔
      ∃ a ∈ arts, (noveltyFilter a.rows a.code seen).1 ≠ []) ∧
    ((processArticles arts seen).2 ≠ [] → notifyOk = true →
      (mainFinish statePath seen (processArticles arts seen).1 (processArticles arts seen).2
          notifyOk).ops =
        [FsOp.write (statePath ++ ".tmp")
          (encodeState (sortedSeen (seen ++ (processArticles arts seen).1))),
         FsOp.rename (statePath ++ ".tmp") statePath] ∧
      (mainFinish statePath seen (processArticles arts seen).1 (processArticles arts seen).2
          notifyOk).seenAfter = seen ++ (processArticles arts seen).1) ∧
    ((processArticles arts seen).2 ≠ [] → notifyOk = false →
      (mainFinish statePath seen (processArticles arts seen).1 (processArticles arts seen).2
          notifyOk).err = some "NotifierDeliveryFailure" ∧
      (mainFinish statePath seen (processArticles arts seen).1 (processArticles arts seen).2
          notifyOk).seenAfter = seen ∧
      (mainFinish statePath seen (processArticles arts seen).1 (processArticles arts seen).2
          notifyOk).ops = []) ∧
    ((processArticles arts seen).2 = [] →
      (mainFinish statePath seen (processArticles arts seen).1 (processArticles arts seen).2
          notifyOk).ops = [] ∧
      (mainFinish statePath seen (processArticles arts seen).1 (processArticles arts seen).2
          notifyOk).seenAfter = seen ∧
      (mainFinish statePath seen (processArticles arts seen).1 (processArticles arts seen).2
          notifyOk).log = some "no updates") := by
  have hpay : ∀ arts2 : List ArticleData, (processArticles arts2 seen).2 ≠ [] ↔
      ∃ a ∈ arts2, (noveltyFilter a.rows a.code seen).1 ≠ [] := by
    intro arts2
    induction arts2 with
    | nil => simp [processArticles]
    | cons a rest ih =>
      simp only [processArticles, ne_eq]
      constructor
      · intro hne
        by_cases hnf : (noveltyFilter a.rows a.code seen).1 = []
        · rw [if_pos (List.isEmpty_iff.2 hnf), List.nil_append] at hne
          obtain ⟨a2, ha2, hne2⟩ := ih.mp hne
          exact ⟨a2, List.mem_cons_of_mem _ ha2, hne2⟩
        · exact ⟨a, List.mem_cons_self _ _, hnf⟩
      · rintro ⟨a2, ha2, hne2⟩ hcontra
        rw [List.append_eq_nil] at hcontra
        obtain ⟨hc1, hc2⟩ := hcontra
        rcases List.mem_cons.1 ha2 with rfl | ha2'
        · rw [if_neg (fun hx => hne2 (List.isEmpty_iff.1 hx))] at hc1
          exact List.cons_ne_nil _ _ hc1
        · exact ih.mpr ⟨a2, ha2', hne2⟩ hc2
  refine ⟨?_, hpay arts, ?_, ?_, ?_⟩
  · unfold mainFinish
    by_cases hp : (processArticles arts seen).2.isEmpty
    · rw [if_pos hp]
      have hpp : (processArticles arts seen).2 = [] := List.isEmpty_iff.1 hp
      simp [hpp]
    · rw [if_neg hp]
      have hpp : (processArticles arts seen).2 ≠ [] := fun he => hp (List.isEmpty_iff.2 he)
      cases notifyOk with
      | true =>
        rw [if_pos rfl]
        simp only [save_state_ops, ne_eq]
        constructor
        · intro _
          exact ⟨hpp, by trivial⟩
        · intro _
          simp
      | false =>
        rw [if_neg (by simp)]
        simp [hpp]
  · intro hne htrue
    subst htrue
    unfold mainFinish
    rw [if_neg (fun hx => hne (List.isEmpty_iff.1 hx)), if_pos rfl]
    exact ⟨rfl, rfl⟩
  · intro hne hfalse
    subst hfalse
    unfold mainFinish
    rw [if_neg (fun hx => hne (List.isEmpty_iff.1 hx)), if_neg (by simp)]
    exact ⟨rfl, rfl, rfl⟩
  · intro hnil
    unfold mainFinish
    rw [if_pos (List.isEmpty_iff.2 hnil)]
    exact ⟨rfl, rfl, rfl⟩

theorem claim_C9_witness :
    (mainFinish "state.json" [] ["codeX|BTCUSDT|2024-03-01 08:00 UTC"]
        ["payload"] false).seenAfter = ([] : List String) ∧
    (mainFinish "state.json" [] ["codeX|BTCUSDT|2024-03-01 08:00 UTC"]
        ["payload"] false).ops = [] := by
  have h := claim_C9 "state.json"
    [ArticleData.mk "T" "codeX"
      [Fact.mk "BTCUSDT" "2024-03-01 08:00 UTC" "2024-03-01 16:00 (Asia/Taipei)"]] [] false
  have h4 := h.2.2.2.1 (by decide) rfl
  exact ⟨h4.2.1, h4.2.2⟩

/-- C10: a pair-bearing line is never consumed by association — if the same
line is the first pair-bearing window line of two distinct markers, each of
its tokens is emitted once per marker, bound to that marker's timestamp. -/
theorem claim_C10 (lines : List String) (la : Nat) (rs : List Fact)
    (h : rawResults lines la = .ok rs)
    (i1 i2 j : Nat) (d1 t1 d2 t2 : String)
    (h1 : i1 < lines.length) (h2 : i2 < lines.length)
    (hm1 : timeLineMatch (lines.getD i1 "") = some (d1, t1))
    (hm2 : timeLineMatch (lines.getD i2 "") = some (d2, t2))
    (hf1 : firstPairIdx lines la i1 = some j)
    (hf2 : firstPairIdx lines la i2 = some j) :
    ∀ p ∈ linePairs (lines.getD j ""),
      (∀ tw1, utc_to_taipei d1 t1 = .ok tw1 → Fact.mk p (mkUtcStr d1 t1) tw1 ∈ rs) ∧
      (∀ tw2, utc_to_taipei d2 t2 = .ok tw2 → Fact.mk p (mkUtcStr d2 t2) tw2 ∈ rs) := by
  have heq := collectFrom_ok_eq lines la _ rs h
  have hmem : ∀ (i : Nat) (d t : String), i < lines.length →
      timeLineMatch (lines.getD i "") = some (d, t) →
      firstPairIdx lines la i = some j →
      ∀ p ∈ linePairs (lines.getD j ""),
      ∀ tw, utc_to_taipei d t = .ok tw → Fact.mk p (mkUtcStr d t) tw ∈ rs := by
    intro i d t hi hm hf p hp tw htw
    rw [heq]
    apply List.mem_flatMap.2
    refine ⟨i, List.mem_range.2 hi, ?_⟩
    simp only [markerContribution, hm, htw, markerFacts, hf]
    exact List.mem_map_of_mem _ hp
  intro p hp
  exact ⟨fun tw1 htw1 => hmem i1 d1 t1 h1 hm1 hf1 p hp tw1 htw1,
    fun tw2 htw2 => hmem i2 d2 t2 h2 hm2 hf2 p hp tw2 htw2⟩

theorem claim_C10_witness :
    Fact.mk "BTCUSDT" "2024-03-01 08:00 UTC" "2024-03-01 16:00 (Asia/Taipei)" ∈
      [Fact.mk "BTCUSDT" "2024-03-01 08:00 UTC" "2024-03-01 16:00 (Asia/Taipei)",
       Fact.mk "BTCUSDT" "2024-03-01 09:00 UTC" "2024-03-01 17:00 (Asia/Taipei)"] ∧
    Fact.mk "BTCUSDT" "2024-03-01 09:00 UTC" "2024-03-01 17:00 (Asia/Taipei)" ∈
      [Fact.mk "BTCUSDT" "2024-03-01 08:00 UTC" "2024-03-01 16:00 (Asia/Taipei)",
       Fact.mk "BTCUSDT" "2024-03-01 09:00 UTC" "2024-03-01 17:00 (Asia/Taipei)"] := by
  have h := claim_C10
    ["2024-03-01 08:00 (UTC)", "2024-03-01 09:00 (UTC)", "BTCUSDT"] 10
    [Fact.mk "BTCUSDT" "2024-03-01 08:00 UTC" "2024-03-01 16:00 (Asia/Taipei)",
     Fact.mk "BTCUSDT" "2024-03-01 09:00 UTC" "2024-03-01 17:00 (Asia/Taipei)"]
    (by decide) 0 1 2 "2024-03-01" "08:00" "2024-03-01" "09:00"
    (by decide) (by decide) (by decide) (by decide) (by decide) (by decide)
  have hp := h "BTCUSDT" (by decide)
  exact ⟨hp.1 "2024-03-01 16:00 (Asia/Taipei)" (by decide),
    hp.2 "2024-03-01 17:00 (Asia/Taipei)" (by decide)⟩

end BinanceAlert
